import Mathlib

/-!
# Verification of the sacad cover-search core

A shallow embedding of the core of the `sacad` album-cover downloader
(`src/cover.rs`, `src/http/mod.rs`, `src/http/cache.rs`, `src/cl.rs`,
`src/lib.rs`, `src/source/mod.rs`, `src/source/discogs.rs`,
`src/bin/sacad_r.rs`), together with proofs and refutations of the
specification's claims about it.

Machine integers (`u32`, `u64`, `usize`) are embedded as `Nat`, with an
explicit `% 2 ^ 32` where the Rust arithmetic can wrap.  The `f64`
aspect-ratio computation of the comparator is embedded over `ℚ` (the
comparator only compares ratios built from small integer pixel sizes, far
from the 0.15 threshold in every concrete instance used here).  Fallible
operations return `Option` / `Except`.
-/

namespace Sacad

/-! ## Data model (`src/cover.rs`, `src/source/mod.rs`, `src/cl.rs`) -/

/-- `Metadata<T>` from `src/cover.rs`: a known or uncertain value, both
carrying the value (`value_hint`). -/
inductive Metadata (T : Type) where
  | known (v : T)
  | uncertain (v : T)
  deriving DecidableEq, Repr

/-- `Metadata::value_hint` from `src/cover.rs`. -/
def Metadata.value_hint : Metadata T → T
  | .known v => v
  | .uncertain v => v

/-- Image format (`Format` in `src/cover.rs`). -/
inductive Format where
  | Jpeg
  | Png
  deriving DecidableEq, Repr

/-- Cover source name (`SourceName` in `src/cl.rs`). -/
inductive SourceName where
  | CoverArtArchive
  | Deezer
  | Discogs
  | Itunes
  | LastFm
  deriving DecidableEq, Repr

/-- `Relevance` from `src/source/mod.rs`: three booleans describing a
source's guarantees. -/
structure Relevance where
  fuzzy : Bool
  only_front_covers : Bool
  unrelated_risk : Bool
  deriving DecidableEq, Repr

/-- Comparison on booleans mirroring Rust `bool::cmp` (`false < true`). -/
def bcmp (x y : Bool) : Ordering :=
  match x, y with
  | false, true => .lt
  | true, false => .gt
  | _, _ => .eq

/-- Comparison on naturals mirroring Rust integer `cmp`. -/
def ncmp (x y : Nat) : Ordering :=
  if x < y then .lt else if y < x then .gt else .eq

/-- Comparison on rationals mirroring `PositiveFinite::<f64>::cmp` on the
exact values. -/
def qcmp (x y : ℚ) : Ordering :=
  if x < y then .lt else if y < x then .gt else .eq

/-- `Ord for Relevance` from `src/source/mod.rs`: less `unrelated_risk`
first, then more `only_front_covers`, then less `fuzzy`. -/
def Relevance.cmp (a b : Relevance) : Ordering :=
  match bcmp a.unrelated_risk b.unrelated_risk with
  | .lt => .gt
  | .gt => .lt
  | .eq =>
    match bcmp a.only_front_covers b.only_front_covers with
    | .eq =>
      match bcmp a.fuzzy b.fuzzy with
      | .lt => .gt
      | .gt => .lt
      | .eq => .eq
    | ord => ord

/-- `Relevance::is_reference` from `src/source/mod.rs`. -/
def Relevance.is_reference (r : Relevance) : Bool :=
  !r.fuzzy && r.only_front_covers && !r.unrelated_risk

/-- Perceptual hash (`PerceptualHash` in `src/perceptual_hash.rs`): a
64-bit value compared by Hamming distance. -/
def PerceptualHash : Type := Nat

/-- Number of set bits (`u64::count_ones`). -/
def popCount (n : Nat) : Nat :=
  if h : n = 0 then 0 else n % 2 + popCount (n / 2)
decreasing_by exact Nat.div_lt_self (Nat.pos_of_ne_zero h) (by omega)

/-- `PerceptualHash::is_similar`: Hamming distance below the build's
threshold (5 for the default `ahash` feature).  The ordering results below
do not depend on the threshold value. -/
def PerceptualHash.is_similar (a b : PerceptualHash) : Bool :=
  popCount (Nat.xor a b % 2 ^ 64) < 5

/-- `CoverKey` from `src/cover.rs`: identifies a cover in hash tables. -/
structure CoverKey where
  url : String
  source_name : SourceName
  deriving DecidableEq, Repr

/-- A cover result (`Cover` in `src/cover.rs`).  The `source_http` client
handle is omitted: it is an I/O resource unused by the comparator and the
orchestrator phases modelled here. -/
structure Cover where
  url : String
  thumbnail_url : String
  size_px : Metadata (Nat × Nat)
  format : Metadata Format
  source_name : SourceName
  relevance : Relevance
  rank : Nat
  deriving DecidableEq, Repr

/-- `Cover::key` from `src/cover.rs`. -/
def Cover.key (c : Cover) : CoverKey :=
  { url := c.url, source_name := c.source_name }

/-- `SearchReference` from `src/cover.rs`: reference hash plus the map
`CoverKey → PerceptualHash` (the `HashMap` embedded as a function). -/
structure SearchReference where
  reference : PerceptualHash
  hashes : CoverKey → Option PerceptualHash

/-- Search options (`SearchOptions` in `src/cl.rs`). -/
structure SearchOptions where
  size : Nat
  size_tolerance_prct : Nat
  cover_sources : List SourceName

/-- `CompareMode` from `src/cover.rs`. -/
inductive CompareMode where
  | Reference
  | Search (search_opts : SearchOptions) (reference : Option SearchReference)

/-! ## Comparator (`compare` in `src/cover.rs`)

The Rust function is a sequence of early-return steps.  Each step is
embedded as a function returning `Option Ordering` (`some` = the step
decides), and `compare` returns the first decision, the final
aspect-ratio tie-break being the fallback. -/

/-- `ratio(c) = |w/h − 1|`, exact over `ℚ` (the Rust code computes it over
`f64`; cover sizes are positive per the data-model invariant). -/
def ratio (c : Cover) : ℚ :=
  |(c.size_px.value_hint.1 : ℚ) / (c.size_px.value_hint.2 : ℚ) - 1|

/-- `avg(c)`: `u32::midpoint(w, h)`, the floored average. -/
def avgSize (c : Cover) : Nat :=
  (c.size_px.value_hint.1 + c.size_px.value_hint.2) / 2

/-- Step 1: prefer square covers when the ratio difference exceeds 0.15. -/
def stepRatio (a b : Cover) : Option Ordering :=
  if 3 / 20 < |ratio a - ratio b| then some (qcmp (ratio b) (ratio a)) else none

/-- `hashes.get(&c.key()).is_some_and(|h| h.is_similar(reference))`. -/
def coverSimilarToRef (r : SearchReference) (c : Cover) : Bool :=
  (r.hashes c.key).elim false fun h => h.is_similar r.reference

/-- Search-mode step: prefer the cover similar to the reference. -/
def stepSimilar (ref : Option SearchReference) (a b : Cover) : Option Ordering :=
  match ref with
  | none => none
  | some r =>
    if coverSimilarToRef r a ≠ coverSimilarToRef r b then
      some (bcmp (coverSimilarToRef r a) (coverSimilarToRef r b))
    else none

/-- Search-mode step: prefer average size at or above the target. -/
def stepAboveTarget (size : Nat) (a b : Cover) : Option Ordering :=
  if avgSize a < size ∧ size ≤ avgSize b then some .lt
  else if size ≤ avgSize a ∧ avgSize b < size then some .gt
  else none

/-- Search-mode step: if both below target and unequal, prefer the larger. -/
def stepBothBelow (size : Nat) (a b : Cover) : Option Ordering :=
  if avgSize a ≠ avgSize b ∧ avgSize a < size ∧ avgSize b < size then
    some (ncmp (avgSize a) (avgSize b))
  else none

/-- Step: prefer better relevance. -/
def stepRelevance (a b : Cover) : Option Ordering :=
  if a.relevance ≠ b.relevance then some (a.relevance.cmp b.relevance) else none

/-- Step: prefer lower source rank. -/
def stepRank (a b : Cover) : Option Ordering :=
  if a.rank ≠ b.rank then some (ncmp b.rank a.rank) else none

/-- Step: prefer known size metadata over uncertain. -/
def stepSizeMeta (a b : Cover) : Option Ordering :=
  match a.size_px, b.size_px with
  | .known _, .uncertain _ => some .gt
  | .uncertain _, .known _ => some .lt
  | _, _ => none

/-- Step: prefer known format metadata over uncertain. -/
def stepFormatMeta (a b : Cover) : Option Ordering :=
  match a.format, b.format with
  | .known _, .uncertain _ => some .gt
  | .uncertain _, .known _ => some .lt
  | _, _ => none

/-- Search-mode step: prefer the average size closest to the target
(`abs_diff`). -/
def stepClosest (size : Nat) (a b : Cover) : Option Ordering :=
  if avgSize a ≠ avgSize b then
    some (ncmp ((avgSize b).dist size) ((avgSize a).dist size))
  else none

/-- Step: prefer PNG over JPEG. -/
def stepPng (a b : Cover) : Option Ordering :=
  match a.format.value_hint, b.format.value_hint with
  | .Jpeg, .Png => some .lt
  | .Png, .Jpeg => some .gt
  | _, _ => none

/-- The early-return sequence of `compare`, in source order. -/
def compareSteps (a b : Cover) (mode : CompareMode) : List (Option Ordering) :=
  [stepRatio a b]
    ++ (match mode with
        | .Reference => []
        | .Search opts ref =>
          [stepSimilar ref a b, stepAboveTarget opts.size a b,
            stepBothBelow opts.size a b])
    ++ [stepRelevance a b, stepRank a b, stepSizeMeta a b, stepFormatMeta a b]
    ++ (match mode with
        | .Reference => []
        | .Search opts _ => [stepClosest opts.size a b])
    ++ [stepPng a b]

/-- First decided step of a step list. -/
def firstDecided : List (Option Ordering) → Option Ordering
  | [] => none
  | some o :: _ => some o
  | none :: rest => firstDecided rest

/-- `compare(a, b, mode)` from `src/cover.rs`: the first deciding step,
falling back to the final aspect-ratio tie-break `ratio_b.cmp(&ratio_a)`. -/
def compare (a b : Cover) (mode : CompareMode) : Ordering :=
  (firstDecided (compareSteps a b mode)).getD (qcmp (ratio b) (ratio a))

/-! ### C1: antisymmetry of the comparator, and its failure of transitivity -/

lemma qcmp_swap (x y : ℚ) : qcmp x y = (qcmp y x).swap := by
  unfold qcmp
  rcases lt_trichotomy x y with h | h | h
  · simp [h, not_lt.mpr h.le, Ordering.swap]
  · simp [h, Ordering.swap]
  · simp [h, not_lt.mpr h.le, Ordering.swap]

lemma ncmp_swap (x y : Nat) : ncmp x y = (ncmp y x).swap := by
  unfold ncmp
  rcases Nat.lt_trichotomy x y with h | h | h
  · simp [h, not_lt.mpr h.le, Ordering.swap]
  · simp [h, Ordering.swap]
  · simp [h, not_lt.mpr h.le, Ordering.swap]

lemma bcmp_swap (x y : Bool) : bcmp x y = (bcmp y x).swap := by
  cases x <;> cases y <;> rfl

lemma relevanceCmp_swap (a b : Relevance) : a.cmp b = (b.cmp a).swap := by
  obtain ⟨a1, a2, a3⟩ := a
  obtain ⟨b1, b2, b3⟩ := b
  cases a1 <;> cases a2 <;> cases a3 <;> cases b1 <;> cases b2 <;> cases b3 <;> rfl

lemma stepRatio_swap (a b : Cover) :
    stepRatio a b = (stepRatio b a).map Ordering.swap := by
  unfold stepRatio
  rw [abs_sub_comm (ratio b) (ratio a)]
  by_cases h : 3 / 20 < |ratio a - ratio b|
  · simp [h, qcmp_swap (ratio b) (ratio a)]
  · simp [h]

lemma stepSimilar_swap (ref : Option SearchReference) (a b : Cover) :
    stepSimilar ref a b = (stepSimilar ref b a).map Ordering.swap := by
  cases ref with
  | none => rfl
  | some r =>
    simp only [stepSimilar]
    by_cases h : coverSimilarToRef r a = coverSimilarToRef r b
    · simp [h]
    · simp [h, Ne.symm h, bcmp_swap (coverSimilarToRef r a) (coverSimilarToRef r b)]

lemma stepAboveTarget_swap (s : Nat) (a b : Cover) :
    stepAboveTarget s a b = (stepAboveTarget s b a).map Ordering.swap := by
  unfold stepAboveTarget
  by_cases ha : avgSize a < s <;> by_cases hb : avgSize b < s
  · have ha' : ¬ s ≤ avgSize a := not_le.mpr ha
    have hb' : ¬ s ≤ avgSize b := not_le.mpr hb
    simp [ha, hb, ha', hb']
  · have ha' : ¬ s ≤ avgSize a := not_le.mpr ha
    have hb' : s ≤ avgSize b := not_lt.mp hb
    simp [ha, hb, ha', hb', Ordering.swap]
  · have ha' : s ≤ avgSize a := not_lt.mp ha
    have hb' : ¬ s ≤ avgSize b := not_le.mpr hb
    simp [ha, hb, ha', hb', Ordering.swap]
  · have ha' : s ≤ avgSize a := not_lt.mp ha
    have hb' : s ≤ avgSize b := not_lt.mp hb
    simp [ha, hb, ha', hb']

lemma stepBothBelow_swap (s : Nat) (a b : Cover) :
    stepBothBelow s a b = (stepBothBelow s b a).map Ordering.swap := by
  unfold stepBothBelow
  by_cases h1 : avgSize a = avgSize b
  · simp [h1]
  · by_cases h2 : avgSize a < s <;> by_cases h3 : avgSize b < s <;>
      simp [h1, Ne.symm h1, h2, h3, ncmp_swap (avgSize a) (avgSize b)]

lemma stepRelevance_swap (a b : Cover) :
    stepRelevance a b = (stepRelevance b a).map Ordering.swap := by
  unfold stepRelevance
  by_cases h : a.relevance = b.relevance
  · simp [h]
  · simp [h, Ne.symm h, relevanceCmp_swap a.relevance b.relevance]

lemma stepRank_swap (a b : Cover) :
    stepRank a b = (stepRank b a).map Ordering.swap := by
  unfold stepRank
  by_cases h : a.rank = b.rank
  · simp [h]
  · simp [h, Ne.symm h, ncmp_swap b.rank a.rank]

lemma stepSizeMeta_swap (a b : Cover) :
    stepSizeMeta a b = (stepSizeMeta b a).map Ordering.swap := by
  cases hsa : a.size_px <;> cases hsb : b.size_px <;>
    simp [stepSizeMeta, hsa, hsb, Ordering.swap]

lemma stepFormatMeta_swap (a b : Cover) :
    stepFormatMeta a b = (stepFormatMeta b a).map Ordering.swap := by
  cases hfa : a.format <;> cases hfb : b.format <;>
    simp [stepFormatMeta, hfa, hfb, Ordering.swap]

lemma stepClosest_swap (s : Nat) (a b : Cover) :
    stepClosest s a b = (stepClosest s b a).map Ordering.swap := by
  unfold stepClosest
  by_cases h : avgSize a = avgSize b
  · simp [h]
  · simp [h, Ne.symm h, ncmp_swap ((avgSize b).dist s) ((avgSize a).dist s)]

lemma stepPng_swap (a b : Cover) :
    stepPng a b = (stepPng b a).map Ordering.swap := by
  cases hfa : a.format.value_hint <;> cases hfb : b.format.value_hint <;>
    simp [stepPng, hfa, hfb, Ordering.swap]

lemma compareSteps_swap (a b : Cover) (mode : CompareMode) :
    compareSteps a b mode = (compareSteps b a mode).map (Option.map Ordering.swap) := by
  cases mode with
  | Reference =>
    simp [compareSteps, stepRatio_swap a b, stepRelevance_swap a b, stepRank_swap a b,
      stepSizeMeta_swap a b, stepFormatMeta_swap a b, stepPng_swap a b]
  | Search opts ref =>
    simp [compareSteps, stepRatio_swap a b, stepSimilar_swap ref a b,
      stepAboveTarget_swap opts.size a b, stepBothBelow_swap opts.size a b,
      stepRelevance_swap a b, stepRank_swap a b, stepSizeMeta_swap a b,
      stepFormatMeta_swap a b, stepClosest_swap opts.size a b, stepPng_swap a b]

lemma firstDecided_map_swap (l : List (Option Ordering)) :
    firstDecided (l.map (Option.map Ordering.swap)) =
      (firstDecided l).map Ordering.swap := by
  induction l with
  | nil => rfl
  | cons hd tl ih => cases hd <;> simp [firstDecided, ih]

/-- A sample cover for concrete comparator evaluations: known size `(w, h)`,
known JPEG format, best relevance, given source rank. -/
def mkCover (w h : Nat) (rank : Nat) : Cover :=
  { url := "u", thumbnail_url := "t",
    size_px := .known (w, h), format := .known .Jpeg,
    source_name := .Deezer,
    relevance := { fuzzy := false, only_front_covers := true, unrelated_risk := false },
    rank := rank }

/-- Claim C1: the comparator is antisymmetric for every mode —
`compare(a, b, mode)` is the exact reversal of `compare(b, a, mode)` —
but it is NOT transitive, hence not a strict total order (see the
counterexample): this theorem proves the antisymmetry half of the amended
claim, for all covers and all compare modes. -/
theorem C1_compare_antisymmetric (a b : Cover) (mode : CompareMode) :
    compare a b mode = (compare b a mode).swap := by
  unfold compare
  rw [compareSteps_swap a b mode, firstDecided_map_swap]
  cases h : firstDecided (compareSteps b a mode) with
  | none => simp [qcmp_swap (ratio b) (ratio a)]
  | some o => simp

/-- Claim C1, counterexample to transitivity: with covers
`a = 720×600` (rank 0), `b = 660×600` (rank 1), `c = 600×600` (rank 2),
the ratio gaps `a`–`b` and `b`–`c` are below 0.15 so those pairs are
decided by rank (`a > b` and `b > c`), while the `a`–`c` ratio gap `0.2`
exceeds 0.15 and decides for the squarer `c`, so `compare(a, c)` is `Less`
instead of `Greater`: `compare` is not transitive, refuting the claimed
strict total order. -/
theorem C1_compare_not_transitive :
    compare (mkCover 720 600 0) (mkCover 660 600 1) .Reference = .gt ∧
      compare (mkCover 660 600 1) (mkCover 600 600 2) .Reference = .gt ∧
      compare (mkCover 720 600 0) (mkCover 600 600 2) .Reference ≠ .gt := by
  have h3 : compare (mkCover 720 600 0) (mkCover 600 600 2) .Reference = .lt := by
    norm_num [compare, compareSteps, stepRatio, stepRelevance, stepRank, stepSizeMeta,
      stepFormatMeta, stepPng, firstDecided, ratio, avgSize, qcmp, ncmp, bcmp,
      Relevance.cmp, Metadata.value_hint, mkCover, abs, max_def]
  refine ⟨?_, ?_, by rw [h3]; decide⟩ <;>
    norm_num [compare, compareSteps, stepRatio, stepRelevance, stepRank, stepSizeMeta,
      stepFormatMeta, stepPng, firstDecided, ratio, avgSize, qcmp, ncmp, bcmp,
      Relevance.cmp, Metadata.value_hint, mkCover, abs, max_def]

/-! ## String normalization (`normalize` in `src/source/mod.rs`)

The Rust function maps every character to the first codepoint emitted by
`unicode_normalization::char::decompose_canonical` (the head of the full
canonical decomposition) and then applies `char::to_lowercase`, collecting
the results.  The Unicode character data the crate consults is embedded
here as finite tables holding the UCD rows for the characters this
development exercises — the ASCII letters and the Latin-1 letters, where a
letter with a canonical decomposition maps to its base letter — with every
other character (which has no decomposition head other than itself and no
distinct lowercase in this fragment) acting as a fixed point. -/

/-- Decomposition heads (first codepoint of the full canonical
decomposition) for the Latin-1 letters that decompose. -/
def decompTable : List (Char × Char) :=
  [('À', 'A'), ('Á', 'A'), ('Â', 'A'), ('Ã', 'A'), ('Ä', 'A'), ('Å', 'A'),
   ('Ç', 'C'), ('È', 'E'), ('É', 'E'), ('Ê', 'E'), ('Ë', 'E'),
   ('Ì', 'I'), ('Í', 'I'), ('Î', 'I'), ('Ï', 'I'), ('Ñ', 'N'),
   ('Ò', 'O'), ('Ó', 'O'), ('Ô', 'O'), ('Õ', 'O'), ('Ö', 'O'),
   ('Ù', 'U'), ('Ú', 'U'), ('Û', 'U'), ('Ü', 'U'), ('Ý', 'Y'),
   ('à', 'a'), ('á', 'a'), ('â', 'a'), ('ã', 'a'), ('ä', 'a'), ('å', 'a'),
   ('ç', 'c'), ('è', 'e'), ('é', 'e'), ('ê', 'e'), ('ë', 'e'),
   ('ì', 'i'), ('í', 'i'), ('î', 'i'), ('ï', 'i'), ('ñ', 'n'),
   ('ò', 'o'), ('ó', 'o'), ('ô', 'o'), ('õ', 'o'), ('ö', 'o'),
   ('ù', 'u'), ('ú', 'u'), ('û', 'u'), ('ü', 'u'), ('ý', 'y'), ('ÿ', 'y')]

/-- `char::to_lowercase` for the letters of the fragment (uppercase ASCII
plus the non-decomposable Latin-1 capitals). -/
def lowerTable : List (Char × List Char) :=
  [('A', ['a']), ('B', ['b']), ('C', ['c']), ('D', ['d']), ('E', ['e']),
   ('F', ['f']), ('G', ['g']), ('H', ['h']), ('I', ['i']), ('J', ['j']),
   ('K', ['k']), ('L', ['l']), ('M', ['m']), ('N', ['n']), ('O', ['o']),
   ('P', ['p']), ('Q', ['q']), ('R', ['r']), ('S', ['s']), ('T', ['t']),
   ('U', ['u']), ('V', ['v']), ('W', ['w']), ('X', ['x']), ('Y', ['y']),
   ('Z', ['z']), ('Æ', ['æ']), ('Ð', ['ð']), ('Ø', ['ø']), ('Þ', ['þ'])]

/-- Head of the canonical decomposition of a character
(`decompose_canonical` with the first emitted codepoint kept,
`nc.unwrap_or(oc)` in the source). -/
def decomposeHead (c : Char) : Char :=
  (decompTable.lookup c).getD c

/-- `char::to_lowercase`, as the list of produced characters. -/
def charLower (c : Char) : List Char :=
  (lowerTable.lookup c).getD [c]

/-- The per-character body of `normalize`'s `flat_map`. -/
def normalizeChar (c : Char) : List Char :=
  charLower (decomposeHead c)

/-- `normalize` from `src/source/mod.rs`, on the character sequence of the
string. -/
def normalize (s : List Char) : List Char :=
  s.flatMap normalizeChar

lemma lookup_mem {β : Type} :
    ∀ {l : List (Char × β)} {c : Char} {v : β}, l.lookup c = some v → (c, v) ∈ l := by
  intro l
  induction l with
  | nil => intro c v h; simp [List.lookup] at h
  | cons hd tl ih =>
    intro c v h
    obtain ⟨k, w⟩ := hd
    by_cases hc : c = k
    · subst hc
      simp [List.lookup] at h
      simp [h]
    · have hbeq : (c == k) = false := beq_eq_false_iff_ne.mpr hc
      simp only [List.lookup, hbeq] at h
      exact List.mem_cons_of_mem _ (ih h)

/-- Every character produced by `normalizeChar` is a `normalizeChar` fixed
point: the tables only output lowercase base letters. -/
lemma normalizeChar_stable (c : Char) : ∀ d ∈ normalizeChar c, normalizeChar d = [d] := by
  intro d hd
  unfold normalizeChar decomposeHead at hd
  cases h1 : decompTable.lookup c with
  | some v =>
    rw [h1] at hd
    have hv : v ∈ decompTable.map Prod.snd :=
      List.mem_map_of_mem Prod.snd (lookup_mem h1)
    have hall : ∀ v ∈ decompTable.map Prod.snd, ∀ d ∈ charLower v,
        normalizeChar d = [d] := by decide
    exact hall v hv d hd
  | none =>
    rw [h1] at hd
    simp only [Option.getD_none] at hd
    cases h2 : lowerTable.lookup c with
    | some vs =>
      rw [charLower, h2] at hd
      simp only [Option.getD_some] at hd
      have hvs : vs ∈ lowerTable.map Prod.snd :=
        List.mem_map_of_mem Prod.snd (lookup_mem h2)
      have hall : ∀ vs ∈ lowerTable.map Prod.snd, ∀ d ∈ vs,
          normalizeChar d = [d] := by decide
      exact hall vs hvs d hd
    | none =>
      rw [charLower, h2] at hd
      simp only [Option.getD_none, List.mem_singleton] at hd
      subst hd
      unfold normalizeChar decomposeHead charLower
      rw [h1]
      simp only [Option.getD_none]
      rw [h2]
      rfl

lemma flatMap_of_stable {l : List Char} (h : ∀ d ∈ l, normalizeChar d = [d]) :
    l.flatMap normalizeChar = l := by
  induction l with
  | nil => rfl
  | cons hd tl ih =>
    rw [List.flatMap_cons, h hd (List.mem_cons_self hd tl),
      ih fun d hd' => h d (List.mem_cons_of_mem _ hd')]
    rfl

/-- Claim C7: `normalize` is idempotent, and it lowercases and strips
accents by keeping the base codepoint of each canonically decomposed
character: `normalize(normalize(s)) == normalize(s)` for every character
sequence, and `normalize("AÀh' JÉeêé") == "aah' jeeee"`. -/
theorem C7_normalize_idempotent :
    (∀ s : List Char, normalize (normalize s) = normalize s) ∧
      normalize ['A', 'À', 'h', Char.ofNat 39, ' ', 'J', 'É', 'e', 'ê', 'é'] =
        ['a', 'a', 'h', Char.ofNat 39, ' ', 'j', 'e', 'e', 'e', 'e'] := by
  constructor
  · intro s
    unfold normalize
    induction s with
    | nil => rfl
    | cons c cs ih =>
      rw [List.flatMap_cons, List.flatMap_append,
        flatMap_of_stable (normalizeChar_stable c), ih]
  · decide

/-! ## Output-path sanitization (`CoverOutputPattern` in `src/bin/sacad_r.rs`) -/

/-- The `VALID_ASCII_PUNCTUATION` set from `sanitize_for_path`
(`-_.()!#$%&'@^{}~` — apostrophe and braces written by codepoint). -/
def validAsciiPunctuation : List Char :=
  ['-', '_', '.', '(', ')', '!', '#', '$', '%', '&', Char.ofNat 39, '@', '^',
   Char.ofNat 123, Char.ofNat 125, '~']

/-- The per-character `filter_map` body of `sanitize_for_path`. -/
def sanitizeCharMap (c : Char) : Option Char :=
  if c = '/' ∨ c = '\\' then some '-'
  else if c = '|' ∨ c = '*' then some 'x'
  else if c.isAlphanum ∨ validAsciiPunctuation.contains c ∨ c = ' ' then some c
  else none

/-- The character set trimmed from both ends (`trim_matches([' ', '.'])`). -/
def isTrimmedChar (c : Char) : Bool :=
  c == ' ' || c == '.'

/-- `str::trim_matches` on both ends, on the character list. -/
def trimEnds (l : List Char) : List Char :=
  (((l.dropWhile isTrimmedChar).reverse).dropWhile isTrimmedChar).reverse

/-- `CoverOutputPattern::sanitize_for_path` from `src/bin/sacad_r.rs`. -/
def sanitize_for_path (s : List Char) : List Char :=
  trimEnds (s.filterMap sanitizeCharMap)

/-- `str::replace` (all non-overlapping occurrences, left to right) for a
non-empty pattern `p0 :: ptl`. -/
def replaceAll (p0 : Char) (ptl rep : List Char) : List Char → List Char
  | [] => []
  | c :: rest =>
    if (p0 :: ptl).isPrefixOf (c :: rest) then
      rep ++ replaceAll p0 ptl rep (rest.drop ptl.length)
    else c :: replaceAll p0 ptl rep rest
termination_by l => l.length
decreasing_by
  all_goals simp_wf
  all_goals omega

/-- `CoverOutputPattern::to_path_buf` from `src/bin/sacad_r.rs`: substitute
the sanitized artist for every `{artist}` and then the sanitized album for
every `{album}`. -/
def to_path_buf (pattern artist album : List Char) : List Char :=
  replaceAll (Char.ofNat 123) "album\x7d".data (sanitize_for_path album)
    (replaceAll (Char.ofNat 123) "artist\x7d".data (sanitize_for_path artist) pattern)

/-- The characters `sanitize_for_path` may keep: ASCII alphanumerics, the
valid punctuation set, and space. -/
def keepChar (c : Char) : Bool :=
  c.isAlphanum || validAsciiPunctuation.contains c || c == ' '

lemma sanitizeCharMap_keep {c d : Char} (h : sanitizeCharMap c = some d) :
    keepChar d = true := by
  unfold sanitizeCharMap at h
  split_ifs at h with h1 h2 h3
  · obtain rfl := Option.some.inj h
    decide
  · obtain rfl := Option.some.inj h
    decide
  · obtain rfl := Option.some.inj h
    rcases h3 with h | h | h
    · simp [keepChar, h]
    · have h' : c ∈ validAsciiPunctuation := by simpa using h
      simp [keepChar, h']
    · simp [keepChar, h]

lemma mem_trimEnds {d : Char} {l : List Char} (h : d ∈ trimEnds l) : d ∈ l := by
  unfold trimEnds at h
  rw [List.mem_reverse] at h
  have h2 := (List.dropWhile_sublist isTrimmedChar).subset h
  rw [List.mem_reverse] at h2
  exact (List.dropWhile_sublist isTrimmedChar).subset h2

lemma head?_dropWhile (p : Char → Bool) :
    ∀ l : List Char, ∀ c, (l.dropWhile p).head? = some c → p c = false := by
  intro l
  induction l with
  | nil => intro c h; simp [List.dropWhile] at h
  | cons hd tl ih =>
    intro c h
    by_cases hp : p hd
    · rw [List.dropWhile_cons_of_pos hp] at h
      exact ih c h
    · rw [List.dropWhile_cons_of_neg hp] at h
      simp only [List.head?_cons, Option.some.injEq] at h
      subst h
      exact Bool.eq_false_iff.mpr hp

lemma trimEnds_getLast? {l : List Char} {c : Char}
    (h : (trimEnds l).getLast? = some c) : isTrimmedChar c = false := by
  unfold trimEnds at h
  rw [List.getLast?_reverse] at h
  exact head?_dropWhile isTrimmedChar _ c h

lemma trimEnds_head? {l : List Char} {c : Char}
    (h : (trimEnds l).head? = some c) : isTrimmedChar c = false := by
  unfold trimEnds at h
  have hpre : (((l.dropWhile isTrimmedChar).reverse).dropWhile isTrimmedChar).reverse
      <+: l.dropWhile isTrimmedChar := by
    have hs : ((l.dropWhile isTrimmedChar).reverse).dropWhile isTrimmedChar
        <:+ (l.dropWhile isTrimmedChar).reverse := List.dropWhile_suffix isTrimmedChar
    have := List.reverse_prefix.mpr hs
    simpa using this
  obtain ⟨t, ht⟩ := hpre
  have : (l.dropWhile isTrimmedChar).head? = some c := by
    rw [← ht, List.head?_append, h]
    rfl
  exact head?_dropWhile isTrimmedChar l c this

/-- Claim C8: path sanitization maps `/` and `\` to `-`, `|` and `*` to
`x`, keeps ASCII alphanumerics, space and the punctuation set
`-_.()!#$%&'@^{}~`, drops every other character, and trims leading and
trailing spaces and dots; artist `AC/DC`, album `Back/in Black` and
pattern `covers/{artist}/{album}.jpg` produce
`covers/AC-DC/Back-in Black.jpg`. -/
theorem C8_sanitize_for_path_spec :
    to_path_buf "covers/{artist}/{album}.jpg".data "AC/DC".data "Back/in Black".data
        = "covers/AC-DC/Back-in Black.jpg".data
      ∧ sanitize_for_path "a/b\\c".data = "a-b-c".data
      ∧ sanitize_for_path "a|b*c".data = "axbxc".data
      ∧ sanitize_for_path "a\"b€c:".data = "abc".data
      ∧ sanitize_for_path " .Artist. ".data = "Artist".data
      ∧ (∀ s : List Char, (sanitize_for_path s).all keepChar = true)
      ∧ (∀ s : List Char,
          (sanitize_for_path s).head?.elim true (fun c => !(isTrimmedChar c)) = true ∧
          (sanitize_for_path s).getLast?.elim true (fun c => !(isTrimmedChar c)) = true) := by
  refine ⟨?_, by decide, by decide, by decide, by decide, ?_, ?_⟩
  · have ha : sanitize_for_path "AC/DC".data = "AC-DC".data := by decide
    have hb : sanitize_for_path "Back/in Black".data = "Back-in Black".data := by decide
    simp [to_path_buf, ha, hb, replaceAll.eq_def, List.isPrefixOf]
  · intro s
    rw [List.all_eq_true]
    intro d hd
    obtain ⟨c, _, hc⟩ := List.mem_filterMap.mp (mem_trimEnds hd)
    exact sanitizeCharMap_keep hc
  · intro s
    constructor
    · cases h : (sanitize_for_path s).head? with
      | none => rfl
      | some c =>
        simp only [Option.elim_some]
        rw [trimEnds_head? h]
        rfl
    · cases h : (sanitize_for_path s).getLast? with
      | none => rfl
      | some c =>
        simp only [Option.elim_some]
        rw [trimEnds_getLast? h]
        rfl

/-! ## Discogs dimension parser (`parse_image_dimensions` in
`src/source/discogs.rs`)

Strings are embedded as character lists (`url.split('/')` over `&str`). -/

/-- `str::split('/')`: every piece kept, including empty ones. -/
def splitSlash : List Char → List (List Char)
  | [] => [[]]
  | c :: rest =>
    if c = '/' then [] :: splitSlash rest
    else
      match splitSlash rest with
      | [] => [[c]]
      | seg :: segs => (c :: seg) :: segs

/-- `u32::from_str`: optional leading `+`, one or more ASCII digits, value
below `2^32`. -/
def parseU32 (s : List Char) : Option Nat :=
  let t := match s with
    | c :: rest => if c = '+' then rest else s
    | [] => s
  if t ≠ [] ∧ t.all Char.isDigit then
    let v := t.foldl (fun acc c => acc * 10 + (c.toNat - 48)) 0
    if v < 2 ^ 32 then some v else none
  else none

/-- `segment.strip_prefix` for the two-character markers `w:` / `h:`. -/
def stripMark (m : Char) : List Char → Option (List Char)
  | x :: y :: rest => if x = m ∧ y = ':' then some rest else none
  | _ => none

/-- One iteration of the segment loop: `w:` assigns `width = parse(w)`,
otherwise `h:` assigns `height = parse(h)`, otherwise no change. -/
def parseDimsStep (seg : List Char) (w h : Option Nat) : Option Nat × Option Nat :=
  match stripMark 'w' seg with
  | some payload => (parseU32 payload, h)
  | none =>
    match stripMark 'h' seg with
    | some payload => (w, parseU32 payload)
    | none => (w, h)

/-- The `for segment in url.split('/').rev()` loop, with the early `break`
once both dimensions are set. -/
def parseDimsLoop : List (List Char) → Option Nat → Option Nat → Option Nat × Option Nat
  | [], w, h => (w, h)
  | seg :: rest, w, h =>
    let st := parseDimsStep seg w h
    if st.1.isSome ∧ st.2.isSome then st else parseDimsLoop rest st.1 st.2

/-- `parse_image_dimensions` from `src/source/discogs.rs`. -/
def parse_image_dimensions (url : List Char) : Option (Nat × Nat) :=
  match parseDimsLoop (splitSlash url).reverse none none with
  | (some w, some h) => some (w, h)
  | _ => none

/-- The parser the claim's sentence describes — searching the path
segments from the right, the FIRST `w:NNN` match and the FIRST `h:NNN`
match each win — written from the spec's words only, to compare with
`parse_image_dimensions`. -/
def specParseFirstMatchWins (url : List Char) : Option (Nat × Nat) :=
  let segs := (splitSlash url).reverse
  let w := segs.findSome? fun seg => (stripMark 'w' seg).bind parseU32
  let h := segs.findSome? fun seg => (stripMark 'h' seg).bind parseU32
  match w, h with
  | some w, some h => some (w, h)
  | _, _ => none

lemma parseDimsStep_fst_none {seg : List Char} (hw : stripMark 'w' seg = none)
    (h : Option Nat) : (parseDimsStep seg none h).1 = none := by
  unfold parseDimsStep
  rw [hw]
  cases stripMark 'h' seg <;> rfl

lemma parseDimsStep_snd_none {seg : List Char} (hh : stripMark 'h' seg = none)
    (w : Option Nat) : (parseDimsStep seg w none).2 = none := by
  unfold parseDimsStep
  cases stripMark 'w' seg with
  | some p => rfl
  | none => rw [hh]

lemma parseDimsLoop_fst_none :
    ∀ (segs : List (List Char)) (h : Option Nat),
      (∀ seg ∈ segs, stripMark 'w' seg = none) →
      (parseDimsLoop segs none h).1 = none := by
  intro segs
  induction segs with
  | nil => intro h _; rfl
  | cons seg rest ih =>
    intro h hall
    have h1 : (parseDimsStep seg none h).1 = none :=
      parseDimsStep_fst_none (hall seg (List.mem_cons_self _ _)) h
    simp only [parseDimsLoop, h1, Option.isSome_none, Bool.false_eq_true,
      false_and, if_false]
    exact ih _ fun s hs => hall s (List.mem_cons_of_mem _ hs)

lemma parseDimsLoop_snd_none :
    ∀ (segs : List (List Char)) (w : Option Nat),
      (∀ seg ∈ segs, stripMark 'h' seg = none) →
      (parseDimsLoop segs w none).2 = none := by
  intro segs
  induction segs with
  | nil => intro w _; rfl
  | cons seg rest ih =>
    intro w hall
    have h2 : (parseDimsStep seg w none).2 = none :=
      parseDimsStep_snd_none (hall seg (List.mem_cons_self _ _)) w
    simp only [parseDimsLoop, h2, Option.isSome_none, Bool.false_eq_true,
      and_false, if_false]
    exact ih _ fun s hs => hall s (List.mem_cons_of_mem _ hs)

/-- Claim C5, counterexample to "the first match of each wins": on the URL
`x/h:7/w:1/w:2`, the first `w:NNN` segment met when scanning from the
right is `w:2`, so the claim predicts `Some((2, 7))`; the code keeps
overwriting `width` until both dimensions are set, so it returns
`Some((1, 7))`. -/
theorem C5_first_match_counterexample :
    parse_image_dimensions "x/h:7/w:1/w:2".data = some (1, 7) ∧
      specParseFirstMatchWins "x/h:7/w:1/w:2".data = some (2, 7) := by
  constructor <;> decide

/-- Claim C5 (amended): the parser scans path segments right to left, each
`w:NNN` / `h:NNN` match overwriting the held value, and stops once both
dimensions are set (so for URLs where each marker occurs at most once the
first match from the right wins); `…/w:500/h:600/…` yields
`Some((500, 600))`; a URL with no `w:` segment, or no `h:` segment, yields
`None` (and the Discogs adapter skips the result). -/
theorem C5_parse_image_dimensions_amended :
    parse_image_dimensions
        "https://i.discogs.com/rs:fit/w:500/h:600/image.jpg".data = some (500, 600) ∧
      parse_image_dimensions "y/h:9/w:3/w:4".data = some (3, 9) ∧
      (∀ url : List Char,
        ((splitSlash url).all fun seg => (stripMark 'w' seg).isNone) = true →
        parse_image_dimensions url = none) ∧
      (∀ url : List Char,
        ((splitSlash url).all fun seg => (stripMark 'h' seg).isNone) = true →
        parse_image_dimensions url = none) := by
  refine ⟨by decide, by decide, ?_, ?_⟩
  · intro url hall
    rw [List.all_eq_true] at hall
    have hw : (parseDimsLoop (splitSlash url).reverse none none).1 = none :=
      parseDimsLoop_fst_none _ none fun seg hs =>
        Option.isNone_iff_eq_none.mp (hall seg (List.mem_reverse.mp hs))
    unfold parse_image_dimensions
    rcases hr : parseDimsLoop (splitSlash url).reverse none none with ⟨w0, h0⟩
    rw [hr] at hw
    simp only at hw
    subst hw
    cases h0 <;> rfl
  · intro url hall
    rw [List.all_eq_true] at hall
    have hh : (parseDimsLoop (splitSlash url).reverse none none).2 = none :=
      parseDimsLoop_snd_none _ none fun seg hs =>
        Option.isNone_iff_eq_none.mp (hall seg (List.mem_reverse.mp hs))
    unfold parse_image_dimensions
    rcases hr : parseDimsLoop (splitSlash url).reverse none none with ⟨w0, h0⟩
    rw [hr] at hh
    simp only at hh
    subst hh
    cases w0 <;> rfl

/-- Witness for `C5_parse_image_dimensions_amended`: instantiating the
missing-dimension clauses on URLs lacking a `w:` (resp. `h:`) segment. -/
theorem C5_parse_image_dimensions_amended_witness :
    parse_image_dimensions "a/h:5/b.jpg".data = none ∧
      parse_image_dimensions "a/w:5/b.jpg".data = none :=
  ⟨C5_parse_image_dimensions_amended.2.2.1 _ (by decide),
    C5_parse_image_dimensions_amended.2.2.2 _ (by decide)⟩

/-! ## Search-options arithmetic (`SearchOptions::matches_min_size` in
`src/cl.rs`)

The Rust expression `self.size - self.size * self.size_tolerance_prct / 100`
is `u32` arithmetic; overflow wraps in the released binary (and panics in
debug builds), so multiplication and subtraction are embedded with an
explicit `% 2 ^ 32`. -/

/-- `u32` wrapping multiplication. -/
def u32Mul (a b : Nat) : Nat := a * b % 2 ^ 32

/-- `u32` wrapping subtraction, for operands below `2 ^ 32`. -/
def u32Sub (a b : Nat) : Nat := (a + 2 ^ 32 - b) % 2 ^ 32

/-- `SearchOptions::matches_min_size` from `src/cl.rs`:
`size >= self.size - self.size * self.size_tolerance_prct / 100`. -/
def SearchOptions.matches_min_size (o : SearchOptions) (size : Nat) : Bool :=
  u32Sub o.size (u32Mul o.size o.size_tolerance_prct / 100) ≤ size

/-- For a tolerance of at most 100 percent, the computed percentage part
never exceeds `size`, even when the `u32` multiplication wraps: the
subtraction in `matches_min_size` cannot underflow. -/
lemma u32Mul_div_le (size tol : Nat) (htol : tol ≤ 100) :
    u32Mul size tol / 100 ≤ size := by
  unfold u32Mul
  have h1 : size * tol ≤ 100 * size := by
    calc size * tol ≤ size * 100 := Nat.mul_le_mul_left size htol
    _ = 100 * size := Nat.mul_comm size 100
  omega

/-- With the subtraction not underflowing, `matches_min_size` decides the
plain inequality against the computed threshold. -/
lemma matches_min_size_eq (size tol tested : Nat) (srcs : List SourceName)
    (hsize : size < 2 ^ 32) (htol : tol ≤ 100) :
    SearchOptions.matches_min_size ⟨size, tol, srcs⟩ tested
      = decide (size - u32Mul size tol / 100 ≤ tested) := by
  have hle := u32Mul_div_le size tol htol
  unfold SearchOptions.matches_min_size u32Sub
  have heq : (size + 2 ^ 32 - u32Mul size tol / 100) % 2 ^ 32
      = size - u32Mul size tol / 100 := by omega
  rw [heq]

/-- Claim C9: `matches_min_size` is underflow-free exactly under the
precondition `size_tolerance_prct ≤ 100`.  For tolerance at most 100 the
percentage part never exceeds `size` (even when the `u32` multiplication
wraps) and the function returns whether the tested size is at least the
computed threshold `size − size·tol/100`; for some tolerance above 100 —
a value the command line accepts — the subtraction underflows. -/
theorem C9_matches_min_size_underflow :
    (∀ size tol tested : Nat, size < 2 ^ 32 → tol ≤ 100 →
        u32Mul size tol / 100 ≤ size ∧
          SearchOptions.matches_min_size ⟨size, tol, []⟩ tested
            = decide (size - u32Mul size tol / 100 ≤ tested)) ∧
      (∃ size tol : Nat, size < 2 ^ 32 ∧ tol < 2 ^ 32 ∧ 100 < tol ∧
        size < u32Mul size tol / 100) := by
  constructor
  · intro size tol tested hsize htol
    exact ⟨u32Mul_div_le size tol htol, matches_min_size_eq size tol tested [] hsize htol⟩
  · exact ⟨1, 200, by decide, by decide, by decide, by decide⟩

/-- Witness for `C9_matches_min_size_underflow` at `size = 600`,
`tol = 25`, `tested = 500`. -/
theorem C9_matches_min_size_underflow_witness :
    u32Mul 600 25 / 100 ≤ 600 ∧
      SearchOptions.matches_min_size ⟨600, 25, []⟩ 500
        = decide (600 - u32Mul 600 25 / 100 ≤ 500) :=
  C9_matches_min_size_underflow.1 600 25 500 (by decide) (by decide)

/-! ## Orchestrator size filter (`search_and_download` in `src/lib.rs`) -/

/-- The `retain` predicate of the size-filter phase:
`matches_min_size(min(width, height))` on the cover's size hint. -/
def sizeKeep (opts : SearchOptions) (c : Cover) : Bool :=
  opts.matches_min_size (min c.size_px.value_hint.1 c.size_px.value_hint.2)

/-- Phase 4 of `search_and_download`: `results.retain(...)`. -/
def sizeFilterPhase (opts : SearchOptions) (results : List Cover) : List Cover :=
  results.filter (sizeKeep opts)

/-- Phases 4–6 of `search_and_download` as a pure pipeline: the size
filter runs first (after the reference hash was chosen, before per-cover
hashes — which neither add nor remove covers — are computed), then the
covers are sorted descending by `compare` in `Search` mode
(`sort_unstable_by(|a, b| compare(b, a, mode))`). -/
def rankPhase (opts : SearchOptions) (ref : Option SearchReference)
    (results : List Cover) : List Cover :=
  (sizeFilterPhase opts results).mergeSort
    fun a b => compare b a (CompareMode.Search opts ref) != Ordering.gt

/-- Claim C6, counterexample: with target size 100 and tolerance 200 % —
accepted by the command line — the claimed threshold
`size − size·tolerance/100` is zero (negative as an integer), so a 50×50
cover must be retained, but the u32 subtraction wraps and the filter
drops it. -/
theorem C6_size_filter_counterexample :
    sizeFilterPhase ⟨100, 200, []⟩ [mkCover 50 50 0] = [] ∧
      100 - 100 * 200 / 100 ≤ min 50 50 := by
  constructor <;> decide

/-- Claim C6 (amended): provided the tolerance is at most 100 % and
`size·tolerance` does not overflow `u32` (so the wrapped arithmetic equals
the formula), the size-filter phase retains a cover if and only if
`min(width, height)` of its size hint is at least
`size − size·tolerance/100`, and the subsequent sort only reorders the
retained covers. -/
theorem C6_size_filter_retains_iff (opts : SearchOptions)
    (ref : Option SearchReference) (results : List Cover) (c : Cover)
    (hsize : opts.size < 2 ^ 32)
    (htol : opts.size_tolerance_prct ≤ 100)
    (hnowrap : opts.size * opts.size_tolerance_prct < 2 ^ 32) :
    c ∈ rankPhase opts ref results ↔
      c ∈ results ∧
        opts.size - opts.size * opts.size_tolerance_prct / 100
          ≤ min c.size_px.value_hint.1 c.size_px.value_hint.2 := by
  unfold rankPhase
  rw [(List.mergeSort_perm (sizeFilterPhase opts results) _).mem_iff]
  unfold sizeFilterPhase
  rw [List.mem_filter]
  have hq : u32Mul opts.size opts.size_tolerance_prct = opts.size * opts.size_tolerance_prct := by
    unfold u32Mul
    omega
  obtain ⟨size, tol, srcs⟩ := opts
  constructor
  · rintro ⟨hmem, hkeep⟩
    refine ⟨hmem, ?_⟩
    unfold sizeKeep at hkeep
    rw [matches_min_size_eq size tol _ srcs hsize htol] at hkeep
    rw [← hq]
    exact of_decide_eq_true hkeep
  · rintro ⟨hmem, hbound⟩
    refine ⟨hmem, ?_⟩
    unfold sizeKeep
    rw [matches_min_size_eq size tol _ srcs hsize htol]
    rw [← hq] at hbound
    exact decide_eq_true hbound

/-- Witness for `C6_size_filter_retains_iff`: a 600×600 cover against
target 600 with 25 % tolerance. -/
theorem C6_size_filter_retains_iff_witness :
    mkCover 600 600 0 ∈ rankPhase ⟨600, 25, []⟩ none [mkCover 600 600 0] ↔
      mkCover 600 600 0 ∈ [mkCover 600 600 0] ∧
        600 - 600 * 25 / 100
          ≤ min (mkCover 600 600 0).size_px.value_hint.1
              (mkCover 600 600 0).size_px.value_hint.2 :=
  C6_size_filter_retains_iff ⟨600, 25, []⟩ none [mkCover 600 600 0] (mkCover 600 600 0)
    (by decide) (by decide) (by decide)

/-! ## HTTP cache, sequential semantics (`Cache` in `src/http/cache.rs`,
`SourceHttpClient::get_api` in `src/http/mod.rs`)

The on-disk key→bytes map is embedded as a function (compression is a
bijective framing the cache does not interpret and is elided); bytes are
`List Nat`; `anyhow` errors are opaque `Nat` codes. -/

/-- `CacheError` from `src/http/cache.rs`, reduced to the variant the
modelled operations produce: `Update` wraps a failed setter future. -/
inductive CacheError where
  | Update (e : Nat)
  deriving DecidableEq, Repr

/-- The persistent content of one cache database. -/
abbrev CacheMap : Type := String → Option (List Nat)

/-- `Cache::set` (an upsert of a single entry). -/
def CacheMap.set (c : CacheMap) (k : String) (v : List Nat) : CacheMap :=
  fun k' => if k' = k then some v else c k'

/-- `Cache::get_or_set`, single-caller semantics (the per-key lock is
invisible to one caller; the concurrent semantics is modelled below).
`setter` is the outcome of the setter future; the boolean records whether
the setter was awaited. -/
def get_or_set (c : CacheMap) (k : String) (setter : Except Nat (List Nat)) :
    Except CacheError (List Nat) × CacheMap × Bool :=
  match c k with
  | some v => (.ok v, c, false)
  | none =>
    match setter with
    | .error e => (.error (.Update e), c, true)
    | .ok v => (.ok v, c.set k v, true)

/-- `SourceHttpClient::get_api`, single-caller semantics: check the API
cache; on a miss perform the rate-limited GET with `error_for_status`
(outcome `fetch`; `.error` = network or HTTP-status failure), store the
full body, return it.  The boolean records whether a request was sent. -/
def get_api (c : CacheMap) (url : String) (fetch : Except Nat (List Nat)) :
    Except Nat (List Nat) × CacheMap × Bool :=
  match c url with
  | some hit => (.ok hit, c, false)
  | none =>
    match fetch with
    | .error e => (.error e, c, true)
    | .ok data => (.ok data, c.set url data, true)

/-- Claim C10: a failing setter leaves the cache unchanged — `get_or_set`
returns the `Update` error, writes no entry (a later `get` on a
previously cold key still returns `None`, so failures are never
negatively cached), and a later `get_or_set` for the same key runs its
setter again and stores its value on success. -/
theorem C10_get_or_set_error_no_write :
    (∀ (c : CacheMap) (k : String) (e : Nat),
        c k = none → get_or_set c k (.error e) = (.error (.Update e), c, true)) ∧
      (∀ (c : CacheMap) (k : String) (e : Nat),
        (get_or_set c k (.error e)).2.1 = c) ∧
      (∀ (c : CacheMap) (k : String) (e : Nat) (v : List Nat),
        c k = none →
          ((get_or_set c k (.error e)).2.1 k = none ∧
            get_or_set ((get_or_set c k (.error e)).2.1) k (.ok v)
              = (.ok v, c.set k v, true) ∧
            ((get_or_set c k (.error e)).2.1.set k v) k = some v)) := by
  refine ⟨?_, ?_, ?_⟩
  · intro c k e hc
    unfold get_or_set
    rw [hc]
  · intro c k e
    unfold get_or_set
    cases c k <;> rfl
  · intro c k e v hc
    have hstate : (get_or_set c k (.error e)).2.1 = c := by
      unfold get_or_set
      rw [hc]
    refine ⟨by rw [hstate, hc], ?_, ?_⟩
    · rw [hstate]
      unfold get_or_set
      rw [hc]
    · rw [hstate]
      unfold CacheMap.set
      simp

/-- Witness for `C10_get_or_set_error_no_write` on the empty cache. -/
theorem C10_get_or_set_error_no_write_witness :
    get_or_set (fun _ => none) "k" (.error 3) = (.error (.Update 3), fun _ => none, true) ∧
      ((get_or_set (fun _ => none) "k" (.error 3)).2.1 "k" = none ∧
        get_or_set ((get_or_set (fun _ => none) "k" (.error 3)).2.1) "k" (.ok [1])
          = (.ok [1], CacheMap.set (fun _ => none) "k" [1], true) ∧
        (((get_or_set (fun _ => none) "k" (.error 3)).2.1).set "k" [1]) "k" = some [1]) :=
  ⟨C10_get_or_set_error_no_write.1 (fun _ => none) "k" 3 rfl,
    C10_get_or_set_error_no_write.2.2 (fun _ => none) "k" 3 [1] rfl⟩

/-- Claim C3 (amended), sequential part: for a single caller,
`get_api(url)` behaves exactly as `api_cache.get_or_set(url, produce)`
with `produce` the rate-limited GET + `error_for_status` returning the
body bytes — a cached value is returned without any request, a fetched
body is stored then returned, and errors correspond through the `Update`
wrapper.  (The claimed serialization of concurrent callers is refuted
separately: `get_api` takes no per-key lock.) -/
theorem C3_get_api_sequentially_get_or_set :
    (∀ (c : CacheMap) (url : String) (fetch : Except Nat (List Nat)),
        get_or_set c url fetch
          = ((get_api c url fetch).1.mapError CacheError.Update,
              (get_api c url fetch).2)) ∧
      (∀ (c : CacheMap) (url : String) (fetch : Except Nat (List Nat)) (v : List Nat),
        c url = some v → get_api c url fetch = (.ok v, c, false)) ∧
      (∀ (c : CacheMap) (url : String) (data : List Nat),
        c url = none →
          (get_api c url (.ok data) = (.ok data, c.set url data, true) ∧
            (c.set url data) url = some data)) := by
  refine ⟨?_, ?_, ?_⟩
  · intro c url fetch
    unfold get_or_set get_api
    cases c url with
    | some v => rfl
    | none => cases fetch <;> rfl
  · intro c url fetch v hc
    unfold get_api
    rw [hc]
  · intro c url data hc
    constructor
    · unfold get_api
      rw [hc]
    · unfold CacheMap.set
      simp

/-- Witness for `C3_get_api_sequentially_get_or_set`: a hit on a one-entry
cache and a miss on the empty cache. -/
theorem C3_get_api_sequentially_get_or_set_witness :
    get_api (fun k => if k = "u" then some [9] else none) "u" (.error 0)
        = (.ok [9], fun k => if k = "u" then some [9] else none, false) ∧
      get_api (fun _ => none) "u" (.ok [5])
        = (.ok [5], CacheMap.set (fun _ => none) "u" [5], true) :=
  ⟨C3_get_api_sequentially_get_or_set.2.1 _ "u" (.error 0) [9] rfl,
    (C3_get_api_sequentially_get_or_set.2.2 (fun _ => none) "u" [5] rfl).1⟩

/-! ## Concurrent semantics of `get_or_set` and `get_api`

The suspension points of the source (spec §5) delimit the atomic actions:
per-key async-mutex acquisition (`busy` map), one cache read transaction,
the setter / HTTP await, one cache write transaction, lock release.  Each
thread runs one call; a schedule lists which thread gets CPU at each step;
a thread whose next action is blocked (lock held by another) stays in
place.  Cached values are `Nat` here; thread `i`'s setter / fetch
produces `pval i` (always successfully — the failing-setter path is the
sequential `get_or_set` above). -/

/-- Which source function a thread is executing. -/
inductive ProgKind where
  | getOrSet
  | getApi
  deriving DecidableEq, Repr

/-- One thread's call: the function, its key (URL), and the value its
setter / fetch produces. -/
structure ThreadSpec where
  kind : ProgKind
  key : String
  pval : Nat
  deriving DecidableEq, Repr

/-- Shared state of one `Cache` plus the per-thread control state.

`pc` encodes the next atomic action: for `getOrSet`
0 = acquire the per-key lock, 1 = cache read, 2 = await setter,
3 = cache write, 4 = release, 5 = done; for `getApi`
0 = cache read, 1 = send GET, 2 = cache write, 5 = done. -/
structure SysState (n : Nat) where
  cache : String → Option Nat
  lock : String → Option (Fin n)
  pc : Fin n → Nat
  res : Fin n → Option Nat
  fetchCount : String → Nat

/-- One atomic step of thread `i`. -/
def stepThread (thr : Fin n → ThreadSpec) (s : SysState n) (i : Fin n) : SysState n :=
  let t := thr i
  match t.kind with
  | .getOrSet =>
    match s.pc i with
    | 0 =>
      match s.lock t.key with
      | none =>
        { s with lock := fun k => if k = t.key then some i else s.lock k,
                 pc := fun j => if j = i then 1 else s.pc j }
      | some _ => s
    | 1 =>
      match s.cache t.key with
      | some v =>
        { s with res := fun j => if j = i then some v else s.res j,
                 pc := fun j => if j = i then 4 else s.pc j }
      | none => { s with pc := fun j => if j = i then 2 else s.pc j }
    | 2 =>
      { s with fetchCount := fun k => if k = t.key then s.fetchCount k + 1 else s.fetchCount k,
               pc := fun j => if j = i then 3 else s.pc j }
    | 3 =>
      { s with cache := fun k => if k = t.key then some t.pval else s.cache k,
               res := fun j => if j = i then some t.pval else s.res j,
               pc := fun j => if j = i then 4 else s.pc j }
    | 4 =>
      { s with lock := fun k => if k = t.key then none else s.lock k,
               pc := fun j => if j = i then 5 else s.pc j }
    | _ => s
  | .getApi =>
    match s.pc i with
    | 0 =>
      match s.cache t.key with
      | some v =>
        { s with res := fun j => if j = i then some v else s.res j,
                 pc := fun j => if j = i then 5 else s.pc j }
      | none => { s with pc := fun j => if j = i then 1 else s.pc j }
    | 1 =>
      { s with fetchCount := fun k => if k = t.key then s.fetchCount k + 1 else s.fetchCount k,
               pc := fun j => if j = i then 2 else s.pc j }
    | 2 =>
      { s with cache := fun k => if k = t.key then some t.pval else s.cache k,
               res := fun j => if j = i then some t.pval else s.res j,
               pc := fun j => if j = i then 5 else s.pc j }
    | _ => s

/-- Run a schedule from a state. -/
def runSched (thr : Fin n → ThreadSpec) (s : SysState n) : List (Fin n) → SysState n
  | [] => s
  | i :: rest => runSched thr (stepThread thr s i) rest

/-- Cold initial state: empty cache, no lock held, all threads at the
start, no request sent. -/
def initState (n : Nat) : SysState n :=
  { cache := fun _ => none, lock := fun _ => none, pc := fun _ => 0,
    res := fun _ => none, fetchCount := fun _ => 0 }

/-- Claim C3, counterexample to the claimed `get_or_set` equivalence:
`get_api` takes no per-key lock, so two concurrent `get_api` callers for
the same cold URL can interleave read–read–GET–GET and send the request
twice, while two `get_or_set` callers for the same cold key send it once
under the interleaved schedule — `get_api` is not equivalent to
`api_cache.get_or_set(url, produce)`, whose produce runs at most once
while any caller waits. -/
theorem C3_get_api_double_fetch_counterexample :
    (runSched (fun _ : Fin 2 => ⟨.getApi, "u", 7⟩) (initState 2)
        [0, 1, 0, 1, 0, 1]).fetchCount "u" = 2 ∧
      (runSched (fun _ : Fin 2 => ⟨.getOrSet, "u", 7⟩) (initState 2)
        [0, 1, 0, 1, 0, 1, 0, 1, 0, 1, 1, 1]).fetchCount "u" = 1 := by
  constructor <;> decide

/-! ### Single-flight invariant for `get_or_set` (claim C4) -/

/-- A family of `get_or_set` threads with given keys and setter values. -/
def gosThreads (key : Fin n → String) (pv : Fin n → Nat) : Fin n → ThreadSpec :=
  fun i => ⟨.getOrSet, key i, pv i⟩

/-- Invariant of every state reachable by a `get_or_set` thread family
from the cold initial state: program counters stay in range; a thread is
between its lock acquisition and its release exactly when it holds its
key's lock (so two threads with the same key are never both inside);
locks are only held on the holder's own key; a thread that read a miss
and has not yet written sees a still-cold key; the per-key request count
is 1 once the key's entry exists plus 1 for a thread between its setter
await and its write; results only ever hold the key's cached value; a
thread past its write / cache hit has a result. -/
structure GosInv (key : Fin n → String) (s : SysState n) : Prop where
  pcLe : ∀ i, s.pc i ≤ 5
  lockOwn : ∀ i, (1 ≤ s.pc i ∧ s.pc i ≤ 4) ↔ s.lock (key i) = some i
  lockKey : ∀ k i, s.lock k = some i → key i = k
  produceCold : ∀ i, s.pc i = 2 ∨ s.pc i = 3 → s.cache (key i) = none
  fetchAcc : ∀ k, s.fetchCount k =
    (if s.cache k = none then 0 else 1)
      + (Finset.univ.filter fun i => key i = k ∧ s.pc i = 3).card
  resCache : ∀ i v, s.res i = some v → s.cache (key i) = some v
  doneRes : ∀ i, 4 ≤ s.pc i → s.res i ≠ none

/-- Two same-key threads inside the critical section coincide. -/
lemma GosInv.cs_unique {key : Fin n → String} {s : SysState n} (inv : GosInv key s)
    {i j : Fin n} (hkey : key i = key j)
    (hi : 1 ≤ s.pc i ∧ s.pc i ≤ 4) (hj : 1 ≤ s.pc j ∧ s.pc j ≤ 4) : i = j := by
  have h1 := (inv.lockOwn i).mp hi
  have h2 := (inv.lockOwn j).mp hj
  rw [hkey] at h1
  exact Option.some.inj (h1.symm.trans h2)

lemma gosInv_init (key : Fin n → String) : GosInv key (initState n) := by
  refine ⟨?_, ?_, ?_, ?_, ?_, ?_, ?_⟩
  · intro i; simp [initState]
  · intro i; simp [initState]
  · intro k i h; simp [initState] at h
  · intro i h; rcases h with h | h <;> simp [initState] at h
  · intro k
    simp [initState]
  · intro i v h; simp [initState] at h
  · intro i h; simp [initState] at h

lemma gosStep_acquire {key : Fin n → String} {pv : Fin n → Nat} {s : SysState n}
    (inv : GosInv key s) (j : Fin n) (hpc : s.pc j = 0) :
    GosInv key (stepThread (gosThreads key pv) s j) := by
  rcases hl : s.lock (key j) with _ | m
  · -- lock free: acquire it, move to the read
    have hstep : stepThread (gosThreads key pv) s j =
        { s with lock := fun k => if k = key j then some j else s.lock k,
                 pc := fun i => if i = j then 1 else s.pc i } := by
      simp [stepThread, gosThreads, hpc, hl]
    rw [hstep]
    refine ⟨?_, ?_, ?_, ?_, ?_, ?_, ?_⟩
    · intro i
      dsimp only
      by_cases hij : i = j <;> simp [hij, inv.pcLe i]
    · intro i
      dsimp only
      by_cases hij : i = j
      · subst hij; simp
      · simp only [if_neg hij]
        by_cases hk : key i = key j
        · rw [hk]
          simp only [if_pos rfl]
          constructor
          · intro hcs
            have := (inv.lockOwn i).mp hcs
            rw [hk, hl] at this
            exact absurd this (by simp)
          · intro hsome
            exact absurd (Option.some.inj hsome).symm hij
        · rw [if_neg hk]
          exact inv.lockOwn i
    · intro k i h
      dsimp only at h
      by_cases hk : k = key j
      · subst hk
        rw [if_pos rfl] at h
        rw [Option.some.inj h]
      · rw [if_neg hk] at h
        exact inv.lockKey k i h
    · intro i h
      dsimp only at h ⊢
      by_cases hij : i = j
      · subst hij; simp at h
      · simp only [if_neg hij] at h
        exact inv.produceCold i h
    · intro k
      dsimp only
      have hcard : (Finset.univ.filter fun i => key i = k ∧
          (if i = j then 1 else s.pc i) = 3) =
          Finset.univ.filter fun i => key i = k ∧ s.pc i = 3 := by
        apply Finset.filter_congr
        intro i _
        by_cases hij : i = j
        · subst hij; simp [hpc]
        · simp [hij]
      rw [hcard]
      exact inv.fetchAcc k
    · exact fun i v h => inv.resCache i v h
    · intro i h
      dsimp only at h
      by_cases hij : i = j
      · subst hij; simp at h
      · simp only [if_neg hij] at h
        exact inv.doneRes i h
  · -- lock held: the thread stays in place
    have hstep : stepThread (gosThreads key pv) s j = s := by
      simp [stepThread, gosThreads, hpc, hl]
    rw [hstep]
    exact inv

/-- Updating one thread's program counter between two non-3 values leaves
every per-key "currently between setter and write" set unchanged. -/
lemma filter_pc_update (key : Fin n → String) (pc : Fin n → Nat) (j : Fin n) (b : Nat)
    (hold : pc j ≠ 3) (hb : b ≠ 3) (k : String) :
    (Finset.univ.filter fun i => key i = k ∧ (if i = j then b else pc i) = 3)
      = Finset.univ.filter fun i => key i = k ∧ pc i = 3 := by
  apply Finset.filter_congr
  intro i _
  by_cases hij : i = j
  · subst hij; simp [hb, hold]
  · simp [hij]

lemma gosStep_read {key : Fin n → String} {pv : Fin n → Nat} {s : SysState n}
    (inv : GosInv key s) (j : Fin n) (hpc : s.pc j = 1) :
    GosInv key (stepThread (gosThreads key pv) s j) := by
  have hlock : s.lock (key j) = some j := (inv.lockOwn j).mp (by omega)
  rcases hc : s.cache (key j) with _ | v
  · -- miss: move to the setter await
    have hstep : stepThread (gosThreads key pv) s j =
        { s with pc := fun i => if i = j then 2 else s.pc i } := by
      simp [stepThread, gosThreads, hpc, hc]
    rw [hstep]
    refine ⟨?_, ?_, ?_, ?_, ?_, ?_, ?_⟩
    · intro i
      dsimp only
      by_cases hij : i = j <;> simp [hij, inv.pcLe i]
    · intro i
      dsimp only
      by_cases hij : i = j
      · subst hij; simp [hlock]
      · simp only [if_neg hij]
        exact inv.lockOwn i
    · exact fun k i h => inv.lockKey k i h
    · intro i h
      dsimp only at h ⊢
      by_cases hij : i = j
      · subst hij; exact hc
      · simp only [if_neg hij] at h
        exact inv.produceCold i h
    · intro k
      dsimp only
      rw [filter_pc_update key s.pc j 2 (by omega) (by omega) k]
      exact inv.fetchAcc k
    · exact fun i v h => inv.resCache i v h
    · intro i h
      dsimp only at h
      by_cases hij : i = j
      · subst hij; simp at h
      · simp only [if_neg hij] at h
        exact inv.doneRes i h
  · -- hit: take the cached value, move to the release
    have hstep : stepThread (gosThreads key pv) s j =
        { s with res := fun i => if i = j then some v else s.res i,
                 pc := fun i => if i = j then 4 else s.pc i } := by
      simp [stepThread, gosThreads, hpc, hc]
    rw [hstep]
    refine ⟨?_, ?_, ?_, ?_, ?_, ?_, ?_⟩
    · intro i
      dsimp only
      by_cases hij : i = j <;> simp [hij, inv.pcLe i]
    · intro i
      dsimp only
      by_cases hij : i = j
      · subst hij; simp [hlock]
      · simp only [if_neg hij]
        exact inv.lockOwn i
    · exact fun k i h => inv.lockKey k i h
    · intro i h
      dsimp only at h ⊢
      by_cases hij : i = j
      · subst hij; simp at h
      · simp only [if_neg hij] at h
        exact inv.produceCold i h
    · intro k
      dsimp only
      rw [filter_pc_update key s.pc j 4 (by omega) (by omega) k]
      exact inv.fetchAcc k
    · intro i w h
      dsimp only at h
      by_cases hij : i = j
      · subst hij
        rw [if_pos rfl] at h
        rw [← Option.some.inj h]
        exact hc
      · rw [if_neg hij] at h
        exact inv.resCache i w h
    · intro i h
      dsimp only at h ⊢
      by_cases hij : i = j
      · subst hij; simp
      · simp only [if_neg hij] at h
        simp only [if_neg hij]
        exact inv.doneRes i h

lemma gosStep_setter {key : Fin n → String} {pv : Fin n → Nat} {s : SysState n}
    (inv : GosInv key s) (j : Fin n) (hpc : s.pc j = 2) :
    GosInv key (stepThread (gosThreads key pv) s j) := by
  have hlock : s.lock (key j) = some j := (inv.lockOwn j).mp (by omega)
  have hcold : s.cache (key j) = none := inv.produceCold j (Or.inl hpc)
  have hstep : stepThread (gosThreads key pv) s j =
      { s with
        fetchCount := fun k => if k = key j then s.fetchCount k + 1 else s.fetchCount k,
        pc := fun i => if i = j then 3 else s.pc i } := by
    simp [stepThread, gosThreads, hpc]
  rw [hstep]
  refine ⟨?_, ?_, ?_, ?_, ?_, ?_, ?_⟩
  · intro i
    dsimp only
    by_cases hij : i = j <;> simp [hij, inv.pcLe i]
  · intro i
    dsimp only
    by_cases hij : i = j
    · subst hij; simp [hlock]
    · simp only [if_neg hij]
      exact inv.lockOwn i
  · exact fun k i h => inv.lockKey k i h
  · intro i h
    dsimp only at h ⊢
    by_cases hij : i = j
    · subst hij; exact hcold
    · simp only [if_neg hij] at h
      exact inv.produceCold i h
  · intro k
    dsimp only
    by_cases hk : k = key j
    · subst hk
      have hcard0 : (Finset.univ.filter fun i => key i = key j ∧ s.pc i = 3) = ∅ := by
        rw [Finset.filter_eq_empty_iff]
        intro i _
        rintro ⟨hkey, h3⟩
        have hij := inv.cs_unique hkey ⟨by omega, by omega⟩ ⟨by omega, by omega⟩
        rw [hij] at h3
        omega
      have hold := inv.fetchAcc (key j)
      rw [hcold, hcard0] at hold
      simp only [Finset.card_empty, if_pos rfl, Nat.add_zero] at hold
      have hcard1 : (Finset.univ.filter fun i =>
          key i = key j ∧ (if i = j then 3 else s.pc i) = 3) = {j} := by
        ext i
        simp only [Finset.mem_filter, Finset.mem_univ, true_and, Finset.mem_singleton]
        constructor
        · rintro ⟨hkey, h3⟩
          by_cases hij : i = j
          · exact hij
          · rw [if_neg hij] at h3
            exact inv.cs_unique hkey ⟨by omega, by omega⟩ ⟨by omega, by omega⟩
        · intro h
          subst h
          simp
      rw [if_pos rfl, hcard1, hcold, hold]
      simp
    · have hne : key j ≠ k := fun h => hk h.symm
      have hcong : (Finset.univ.filter fun i =>
          key i = k ∧ (if i = j then 3 else s.pc i) = 3) =
          Finset.univ.filter fun i => key i = k ∧ s.pc i = 3 := by
        apply Finset.filter_congr
        intro i _
        by_cases hij : i = j
        · subst hij; simp [hne]
        · simp [hij]
      rw [if_neg hk, hcong]
      exact inv.fetchAcc k
  · exact fun i v h => inv.resCache i v h
  · intro i h
    dsimp only at h
    by_cases hij : i = j
    · subst hij; simp [hpc] at h
    · simp only [if_neg hij] at h
      exact inv.doneRes i h

lemma gosStep_write {key : Fin n → String} {pv : Fin n → Nat} {s : SysState n}
    (inv : GosInv key s) (j : Fin n) (hpc : s.pc j = 3) :
    GosInv key (stepThread (gosThreads key pv) s j) := by
  have hlock : s.lock (key j) = some j := (inv.lockOwn j).mp (by omega)
  have hcold : s.cache (key j) = none := inv.produceCold j (Or.inr hpc)
  have hstep : stepThread (gosThreads key pv) s j =
      { s with
        cache := fun k => if k = key j then some (pv j) else s.cache k,
        res := fun i => if i = j then some (pv j) else s.res i,
        pc := fun i => if i = j then 4 else s.pc i } := by
    simp [stepThread, gosThreads, hpc]
  rw [hstep]
  refine ⟨?_, ?_, ?_, ?_, ?_, ?_, ?_⟩
  · intro i
    dsimp only
    by_cases hij : i = j <;> simp [hij, inv.pcLe i]
  · intro i
    dsimp only
    by_cases hij : i = j
    · subst hij; simp [hlock]
    · simp only [if_neg hij]
      exact inv.lockOwn i
  · exact fun k i h => inv.lockKey k i h
  · intro i h
    dsimp only at h ⊢
    by_cases hij : i = j
    · subst hij; simp at h
    · simp only [if_neg hij] at h
      have hkne : key i ≠ key j := by
        intro hkey
        exact hij (inv.cs_unique hkey ⟨by omega, by omega⟩ ⟨by omega, by omega⟩)
      rw [if_neg hkne]
      exact inv.produceCold i h
  · intro k
    dsimp only
    by_cases hk : k = key j
    · subst hk
      have hcard1 : (Finset.univ.filter fun i => key i = key j ∧ s.pc i = 3) = {j} := by
        ext i
        simp only [Finset.mem_filter, Finset.mem_univ, true_and, Finset.mem_singleton]
        constructor
        · rintro ⟨hkey, h3⟩
          exact inv.cs_unique hkey ⟨by omega, by omega⟩ ⟨by omega, by omega⟩
        · intro h
          subst h
          exact ⟨rfl, hpc⟩
      have hold := inv.fetchAcc (key j)
      rw [hcold, hcard1] at hold
      simp only [Finset.card_singleton, if_pos rfl, Nat.zero_add] at hold
      have hcard0 : (Finset.univ.filter fun i =>
          key i = key j ∧ (if i = j then 4 else s.pc i) = 3) = ∅ := by
        rw [Finset.filter_eq_empty_iff]
        intro i _
        rintro ⟨hkey, h3⟩
        by_cases hij : i = j
        · rw [if_pos hij] at h3
          omega
        · rw [if_neg hij] at h3
          exact hij (inv.cs_unique hkey ⟨by omega, by omega⟩ ⟨by omega, by omega⟩)
      rw [if_pos rfl, hcard0, hold]
      simp
    · have hne : key j ≠ k := fun h => hk h.symm
      have hcong : (Finset.univ.filter fun i =>
          key i = k ∧ (if i = j then 4 else s.pc i) = 3) =
          Finset.univ.filter fun i => key i = k ∧ s.pc i = 3 := by
        apply Finset.filter_congr
        intro i _
        by_cases hij : i = j
        · subst hij; simp [hne]
        · simp [hij]
      rw [if_neg hk, hcong]
      exact inv.fetchAcc k
  · intro i v h
    dsimp only at h ⊢
    by_cases hij : i = j
    · subst hij
      rw [if_pos rfl] at h
      rw [if_pos rfl, h]
    · rw [if_neg hij] at h
      have hold := inv.resCache i v h
      have hkne : key i ≠ key j := by
        intro hkey
        rw [hkey, hcold] at hold
        exact Option.noConfusion hold
      rw [if_neg hkne]
      exact hold
  · intro i h
    dsimp only at h ⊢
    by_cases hij : i = j
    · subst hij; simp
    · simp only [if_neg hij] at h
      simp only [if_neg hij]
      exact inv.doneRes i h

lemma gosStep_release {key : Fin n → String} {pv : Fin n → Nat} {s : SysState n}
    (inv : GosInv key s) (j : Fin n) (hpc : s.pc j = 4) :
    GosInv key (stepThread (gosThreads key pv) s j) := by
  have hlock : s.lock (key j) = some j := (inv.lockOwn j).mp (by omega)
  have hstep : stepThread (gosThreads key pv) s j =
      { s with
        lock := fun k => if k = key j then none else s.lock k,
        pc := fun i => if i = j then 5 else s.pc i } := by
    simp [stepThread, gosThreads, hpc]
  rw [hstep]
  refine ⟨?_, ?_, ?_, ?_, ?_, ?_, ?_⟩
  · intro i
    dsimp only
    by_cases hij : i = j <;> simp [hij, inv.pcLe i]
  · intro i
    dsimp only
    by_cases hij : i = j
    · subst hij; simp
    · simp only [if_neg hij]
      by_cases hk : key i = key j
      · rw [hk, if_pos rfl]
        constructor
        · intro hcs
          have := (inv.lockOwn i).mp hcs
          rw [hk, hlock] at this
          exact absurd (Option.some.inj this).symm hij
        · intro hsome
          exact Option.noConfusion hsome
      · rw [if_neg hk]
        exact inv.lockOwn i
  · intro k i h
    dsimp only at h
    by_cases hk : k = key j
    · rw [if_pos hk] at h
      exact Option.noConfusion h
    · rw [if_neg hk] at h
      exact inv.lockKey k i h
  · intro i h
    dsimp only at h ⊢
    by_cases hij : i = j
    · subst hij; simp at h
    · simp only [if_neg hij] at h
      exact inv.produceCold i h
  · intro k
    dsimp only
    rw [filter_pc_update key s.pc j 5 (by omega) (by omega) k]
    exact inv.fetchAcc k
  · exact fun i v h => inv.resCache i v h
  · intro i h
    dsimp only at h ⊢
    by_cases hij : i = j
    · subst hij
      exact inv.doneRes _ (by omega)
    · simp only [if_neg hij] at h
      exact inv.doneRes i h

/-- The invariant is preserved by every step of every thread. -/
lemma gosInv_step {key : Fin n → String} {pv : Fin n → Nat} {s : SysState n}
    (inv : GosInv key s) (j : Fin n) :
    GosInv key (stepThread (gosThreads key pv) s j) := by
  rcases hpc : s.pc j with _ | _ | _ | _ | _ | m
  · exact gosStep_acquire inv j hpc
  · exact gosStep_read inv j hpc
  · exact gosStep_setter inv j hpc
  · exact gosStep_write inv j hpc
  · exact gosStep_release inv j hpc
  · have hstep : stepThread (gosThreads key pv) s j = s := by
      simp [stepThread, gosThreads, hpc]
    rw [hstep]
    exact inv

/-- The invariant holds after running any schedule from any invariant
state, in particular from the cold initial state. -/
lemma gosInv_run {key : Fin n → String} {pv : Fin n → Nat} :
    ∀ (sched : List (Fin n)) (s : SysState n), GosInv key s →
      GosInv key (runSched (gosThreads key pv) s sched) := by
  intro sched
  induction sched with
  | nil => exact fun s inv => inv
  | cons j rest ih =>
    intro s inv
    exact ih _ (gosInv_step inv j)

/-- In any invariant state, at most one request has been issued per key. -/
lemma GosInv.fetch_le_one {key : Fin n → String} {s : SysState n}
    (inv : GosInv key s) (k : String) : s.fetchCount k ≤ 1 := by
  rw [inv.fetchAcc k]
  rcases hc : s.cache k with _ | v
  · have hcard : (Finset.univ.filter fun i => key i = k ∧ s.pc i = 3).card ≤ 1 := by
      apply Finset.card_le_one.mpr
      intro a ha b hb
      simp only [Finset.mem_filter, Finset.mem_univ, true_and] at ha hb
      have h1 : s.pc a = 3 := ha.2
      have h2 : s.pc b = 3 := hb.2
      exact inv.cs_unique (ha.1.trans hb.1.symm) ⟨by omega, by omega⟩ ⟨by omega, by omega⟩
    have hif : (if (none : Option Nat) = none then 0 else 1) = 0 := rfl
    rw [hif]
    omega
  · have hcard : (Finset.univ.filter fun i => key i = k ∧ s.pc i = 3) = ∅ := by
      rw [Finset.filter_eq_empty_iff]
      intro i _
      rintro ⟨hkey, h3⟩
      have := inv.produceCold i (Or.inr h3)
      rw [hkey, hc] at this
      exact Option.noConfusion this
    rw [hcard]
    simp

/-- If every thread of a family finished, the family's key saw exactly
one issued request. -/
lemma GosInv.all_done_fetch_one {key : Fin n → String} {s : SysState n}
    (inv : GosInv key s) (i0 : Fin n) (hall : ∀ i, s.pc i = 5) :
    s.fetchCount (key i0) = 1 := by
  have hres := inv.doneRes i0 (by rw [hall i0]; omega)
  rcases hr : s.res i0 with _ | v
  · exact absurd hr hres
  have hcache := inv.resCache i0 v hr
  rw [inv.fetchAcc (key i0), hcache]
  have hcard : (Finset.univ.filter fun i => key i = key i0 ∧ s.pc i = 3) = ∅ := by
    rw [Finset.filter_eq_empty_iff]
    intro i _
    rintro ⟨_, h3⟩
    rw [hall i] at h3
    omega
  rw [hcard]
  simp

/-- Two finished threads with the same key observed the same value. -/
lemma GosInv.done_same_value {key : Fin n → String} {s : SysState n}
    (inv : GosInv key s) (i j : Fin n) (hkey : key i = key j)
    (hi : s.pc i = 5) (hj : s.pc j = 5) : s.res i = s.res j := by
  rcases hri : s.res i with _ | vi
  · exact absurd hri (inv.doneRes i (by omega))
  rcases hrj : s.res j with _ | vj
  · exact absurd hrj (inv.doneRes j (by omega))
  have h1 := inv.resCache i vi hri
  have h2 := inv.resCache j vj hrj
  rw [hkey] at h1
  exact h1.symm.trans h2

/-- With injective keys, a thread's key lock is only ever free or its
own: threads for distinct keys never wait on each other. -/
lemma GosInv.lock_own_or_none {key : Fin n → String} {s : SysState n}
    (inv : GosInv key s) (hinj : Function.Injective key) (i : Fin n) :
    s.lock (key i) = none ∨ s.lock (key i) = some i := by
  rcases hl : s.lock (key i) with _ | m
  · exact Or.inl rfl
  · right
    have hkm := inv.lockKey (key i) m hl
    exact congrArg some (hinj hkm)

/-- With injective keys, stepping an unfinished thread always advances its
program counter: no step of one caller is ever blocked by a caller for a
different key. -/
lemma GosInv.progress {key : Fin n → String} (pv : Fin n → Nat) {s : SysState n}
    (inv : GosInv key s) (hinj : Function.Injective key) (j : Fin n)
    (h : s.pc j < 5) :
    s.pc j < (stepThread (gosThreads key pv) s j).pc j := by
  have h5 := inv.pcLe j
  rcases hpc : s.pc j with _ | _ | _ | _ | _ | m
  · have hl : s.lock (key j) = none := by
      rcases inv.lock_own_or_none hinj j with hl | hl
      · exact hl
      · have := (inv.lockOwn j).mpr hl
        omega
    simp [stepThread, gosThreads, hpc, hl]
  · rcases hc : s.cache (key j) with _ | v <;> simp [stepThread, gosThreads, hpc, hc]
  · simp [stepThread, gosThreads, hpc]
  · simp [stepThread, gosThreads, hpc]
  · simp [stepThread, gosThreads, hpc]
  · omega

/-- Claim C4: single-flight of `Cache::get_or_set`.  For every `N`
concurrent `get_or_set(k, produce)` callers starting from a cold key and
every schedule: the setter runs at most once while any caller is still
waiting; when all callers have finished it ran exactly once; all finished
callers observe the same stored value; and callers for distinct keys
(injective key assignment) never hold each other's lock, issue one
request per key, and every scheduled step of an unfinished caller makes
progress — they proceed in parallel without serializing on each other. -/
theorem C4_get_or_set_single_flight :
    (∀ (n : Nat) (kk : String) (pv : Fin n → Nat) (sched : List (Fin n)),
        (runSched (gosThreads (fun _ => kk) pv) (initState n) sched).fetchCount kk ≤ 1) ∧
      (∀ (n : Nat) (kk : String) (pv : Fin n → Nat) (sched : List (Fin n)) (_i0 : Fin n),
        (∀ i, (runSched (gosThreads (fun _ => kk) pv) (initState n) sched).pc i = 5) →
          (runSched (gosThreads (fun _ => kk) pv) (initState n) sched).fetchCount kk = 1) ∧
      (∀ (n : Nat) (kk : String) (pv : Fin n → Nat) (sched : List (Fin n)) (i j : Fin n),
        (runSched (gosThreads (fun _ => kk) pv) (initState n) sched).pc i = 5 →
        (runSched (gosThreads (fun _ => kk) pv) (initState n) sched).pc j = 5 →
          (runSched (gosThreads (fun _ => kk) pv) (initState n) sched).res i
            = (runSched (gosThreads (fun _ => kk) pv) (initState n) sched).res j) ∧
      (∀ (n : Nat) (key : Fin n → String) (pv : Fin n → Nat) (sched : List (Fin n)),
        Function.Injective key →
          ∀ i : Fin n,
            ((runSched (gosThreads key pv) (initState n) sched).lock (key i) = none ∨
              (runSched (gosThreads key pv) (initState n) sched).lock (key i) = some i) ∧
            (runSched (gosThreads key pv) (initState n) sched).fetchCount (key i) ≤ 1 ∧
            ((runSched (gosThreads key pv) (initState n) sched).pc i < 5 →
              (runSched (gosThreads key pv) (initState n) sched).pc i
                < (stepThread (gosThreads key pv)
                    (runSched (gosThreads key pv) (initState n) sched) i).pc i)) := by
  refine ⟨?_, ?_, ?_, ?_⟩
  · intro n kk pv sched
    exact (gosInv_run sched _ (gosInv_init _)).fetch_le_one kk
  · intro n kk pv sched i0 hall
    exact (gosInv_run sched _ (gosInv_init _)).all_done_fetch_one i0 hall

  · intro n kk pv sched i j hi hj
    exact (gosInv_run sched _ (gosInv_init _)).done_same_value i j rfl hi hj
  · intro n key pv sched hinj i
    have inv := @gosInv_run n key pv sched (initState n) (gosInv_init key)
    exact ⟨inv.lock_own_or_none hinj i, inv.fetch_le_one (key i),
      fun h => inv.progress pv hinj i h⟩

/-- Witness for `C4_get_or_set_single_flight`: two callers for the same
cold key under an alternating schedule that completes both, and two
callers for distinct keys. -/
theorem C4_get_or_set_single_flight_witness :
    (runSched (gosThreads (fun _ : Fin 2 => "k") fun _ => 7) (initState 2)
        [0, 1, 0, 1, 0, 1, 0, 1, 0, 1, 1, 1]).fetchCount "k" = 1 ∧
      (runSched (gosThreads (fun _ : Fin 2 => "k") fun _ => 7) (initState 2)
          [0, 1, 0, 1, 0, 1, 0, 1, 0, 1, 1, 1]).res 0
        = (runSched (gosThreads (fun _ : Fin 2 => "k") fun _ => 7) (initState 2)
          [0, 1, 0, 1, 0, 1, 0, 1, 0, 1, 1, 1]).res 1 ∧
      (((runSched (gosThreads (fun i : Fin 2 => if i = 0 then "a" else "b") fun _ => 7)
            (initState 2) [0, 1]).lock
              ((fun i : Fin 2 => if i = 0 then "a" else "b") 0) = none ∨
          (runSched (gosThreads (fun i : Fin 2 => if i = 0 then "a" else "b") fun _ => 7)
            (initState 2) [0, 1]).lock
              ((fun i : Fin 2 => if i = 0 then "a" else "b") 0) = some 0) ∧
        (runSched (gosThreads (fun i : Fin 2 => if i = 0 then "a" else "b") fun _ => 7)
          (initState 2) [0, 1]).fetchCount
            ((fun i : Fin 2 => if i = 0 then "a" else "b") 0) ≤ 1 ∧
        ((runSched (gosThreads (fun i : Fin 2 => if i = 0 then "a" else "b") fun _ => 7)
            (initState 2) [0, 1]).pc 0 < 5 →
          (runSched (gosThreads (fun i : Fin 2 => if i = 0 then "a" else "b") fun _ => 7)
              (initState 2) [0, 1]).pc 0
            < (stepThread (gosThreads (fun i : Fin 2 => if i = 0 then "a" else "b") fun _ => 7)
                (runSched (gosThreads (fun i : Fin 2 => if i = 0 then "a" else "b") fun _ => 7)
                  (initState 2) [0, 1]) 0).pc 0)) :=
  ⟨C4_get_or_set_single_flight.2.1 2 "k" (fun _ => 7)
      [0, 1, 0, 1, 0, 1, 0, 1, 0, 1, 1, 1] 0 (by decide),
    C4_get_or_set_single_flight.2.2.1 2 "k" (fun _ => 7)
      [0, 1, 0, 1, 0, 1, 0, 1, 0, 1, 1, 1] 0 1 (by decide) (by decide),
    C4_get_or_set_single_flight.2.2.2 2 (fun i : Fin 2 => if i = 0 then "a" else "b")
      (fun _ => 7) [0, 1] (by decide) 0⟩

/-! ## Rate limiter (`RateLimitState::wait_for` in `src/http/mod.rs`)

Time is a `Nat` tick count (`Instant` is monotone, so call times are
non-decreasing and not before the construction instant `start`).
`wait_for` is called once per request attempt: a `none` result lets the
request go out, a `some d` result prescribes sleeping `d` ticks and
calling again. -/

/-- `RateLimitWindow` from `src/http/mod.rs` (`limit` is a
`NonZeroUsize`: the invariant `1 ≤ limit` is carried as a hypothesis). -/
structure RateLimitWindow where
  start : Nat
  length : Nat
  count : Nat
  limit : Nat
  deriving DecidableEq, Repr

/-- `RateLimitState::wait_for`: reset the window if more than `length`
elapsed since `start` (`saturating_duration_since` is `Nat`
subtraction), else admit while `count < limit`, else prescribe waiting
until the window ends. -/
def wait_for (s : RateLimitWindow) (now : Nat) : Option Nat × RateLimitWindow :=
  if s.length < now - s.start then
    (none, { s with start := now, count := 1 })
  else if s.count < s.limit then
    (none, { s with count := s.count + 1 })
  else
    (some (s.start + s.length - now), s)

/-- Trace of a call sequence: for each call time, the `wait_for` result
and the window start after the call. -/
def rlTrace (s : RateLimitWindow) : List Nat → List (Nat × Option Nat × Nat)
  | [] => []
  | t :: ts =>
    let r := wait_for s t
    (t, r.1, r.2.start) :: rlTrace r.2 ts

/-- The issued requests (calls `wait_for` admitted), each with the start
of the window that admitted it. -/
def rlIssued (s : RateLimitWindow) (ts : List Nat) : List (Nat × Nat) :=
  (rlTrace s ts).filterMap fun e => if e.2.1 = none then some (e.1, e.2.2) else none

/-- The prescribed waits of a call sequence. -/
def rlWaits (s : RateLimitWindow) (ts : List Nat) : List Nat :=
  (rlTrace s ts).filterMap fun e => e.2.1

/-- Claim C2, counterexample: with `max_count = 1` and `time = 500`, a
request admitted at tick 400 (window started at 0) and a second admitted
at tick 501 (the window reset) both fall inside the interval
`[400, 900]` of duration `time` — 2 > `max_count` issued requests in one
`time`-long interval, refuting the claimed sliding-window bound. -/
theorem C2_rate_limit_interval_counterexample :
    rlIssued ⟨0, 500, 0, 1⟩ [400, 501] = [(400, 0), (501, 501)] ∧
      ((rlIssued ⟨0, 500, 0, 1⟩ [400, 501]).filter
        fun p => 400 ≤ p.1 ∧ p.1 ≤ 400 + 500).length = 2 := by
  constructor <;> decide

lemma wait_for_reset {s : RateLimitWindow} {now : Nat} (h : s.length < now - s.start) :
    wait_for s now = (none, { s with start := now, count := 1 }) := by
  simp [wait_for, h]

lemma wait_for_grant {s : RateLimitWindow} {now : Nat}
    (h1 : ¬ s.length < now - s.start) (h2 : s.count < s.limit) :
    wait_for s now = (none, { s with count := s.count + 1 }) := by
  simp [wait_for, h1, h2]

lemma wait_for_block {s : RateLimitWindow} {now : Nat}
    (h1 : ¬ s.length < now - s.start) (h2 : ¬ s.count < s.limit) :
    wait_for s now = (some (s.start + s.length - now), s) := by
  simp [wait_for, h1, h2]

lemma rlIssued_cons_reset {s : RateLimitWindow} {t : Nat} {ts : List Nat}
    (h : s.length < t - s.start) :
    rlIssued s (t :: ts)
      = (t, t) :: rlIssued { s with start := t, count := 1 } ts := by
  simp [rlIssued, rlTrace, wait_for_reset h]

lemma rlIssued_cons_grant {s : RateLimitWindow} {t : Nat} {ts : List Nat}
    (h1 : ¬ s.length < t - s.start) (h2 : s.count < s.limit) :
    rlIssued s (t :: ts)
      = (t, s.start) :: rlIssued { s with count := s.count + 1 } ts := by
  simp [rlIssued, rlTrace, wait_for_grant h1 h2]

lemma rlIssued_cons_block {s : RateLimitWindow} {t : Nat} {ts : List Nat}
    (h1 : ¬ s.length < t - s.start) (h2 : ¬ s.count < s.limit) :
    rlIssued s (t :: ts) = rlIssued s ts := by
  simp [rlIssued, rlTrace, wait_for_block h1 h2]

lemma rlWaits_cons_reset {s : RateLimitWindow} {t : Nat} {ts : List Nat}
    (h : s.length < t - s.start) :
    rlWaits s (t :: ts) = rlWaits { s with start := t, count := 1 } ts := by
  simp [rlWaits, rlTrace, wait_for_reset h]

lemma rlWaits_cons_grant {s : RateLimitWindow} {t : Nat} {ts : List Nat}
    (h1 : ¬ s.length < t - s.start) (h2 : s.count < s.limit) :
    rlWaits s (t :: ts) = rlWaits { s with count := s.count + 1 } ts := by
  simp [rlWaits, rlTrace, wait_for_grant h1 h2]

lemma rlWaits_cons_block {s : RateLimitWindow} {t : Nat} {ts : List Nat}
    (h1 : ¬ s.length < t - s.start) (h2 : ¬ s.count < s.limit) :
    rlWaits s (t :: ts) = (s.start + s.length - t) :: rlWaits s ts := by
  simp [rlWaits, rlTrace, wait_for_block h1 h2]

/-- Every issued request falls inside the window that admitted it. -/
lemma rlIssued_window {ts : List Nat} :
    ∀ (s : RateLimitWindow), List.Pairwise (· ≤ ·) ts → (∀ t ∈ ts, s.start ≤ t) →
      ∀ p ∈ rlIssued s ts, p.2 ≤ p.1 ∧ p.1 ≤ p.2 + s.length := by
  induction ts with
  | nil => intro s _ _ p hp; simp [rlIssued, rlTrace] at hp
  | cons t ts ih =>
    intro s hmono hstart
    have hst : s.start ≤ t := hstart t (List.mem_cons_self t ts)
    obtain ⟨hts, hmono'⟩ := List.pairwise_cons.mp hmono
    by_cases h1 : s.length < t - s.start
    · rw [rlIssued_cons_reset h1]
      intro p hp
      rcases List.mem_cons.mp hp with rfl | hp'
      · exact ⟨Nat.le_refl t, Nat.le_add_right t s.length⟩
      · have h := ih { s with start := t, count := 1 } hmono' (fun x hx => hts x hx) p hp'
        dsimp only at h
        exact h
    · by_cases h2 : s.count < s.limit
      · rw [rlIssued_cons_grant h1 h2]
        intro p hp
        rcases List.mem_cons.mp hp with rfl | hp'
        · exact ⟨hst, by omega⟩
        · have h := ih { s with count := s.count + 1 } hmono'
            (fun x hx => hstart x (List.mem_cons_of_mem t hx)) p hp'
          dsimp only at h
          exact h
      · rw [rlIssued_cons_block h1 h2]
        exact ih s hmono' fun x hx => hstart x (List.mem_cons_of_mem t hx)

/-- Every issued tag is the current window start or past the current
window. -/
lemma rlIssued_tags {ts : List Nat} :
    ∀ (s : RateLimitWindow), List.Pairwise (· ≤ ·) ts → (∀ t ∈ ts, s.start ≤ t) →
      ∀ p ∈ rlIssued s ts, p.2 = s.start ∨ s.start + s.length < p.2 := by
  induction ts with
  | nil => intro s _ _ p hp; simp [rlIssued, rlTrace] at hp
  | cons t ts ih =>
    intro s hmono hstart
    have hst : s.start ≤ t := hstart t (List.mem_cons_self t ts)
    obtain ⟨hts, hmono'⟩ := List.pairwise_cons.mp hmono
    by_cases h1 : s.length < t - s.start
    · have hgap : s.start + s.length < t := by omega
      rw [rlIssued_cons_reset h1]
      intro p hp
      rcases List.mem_cons.mp hp with rfl | hp'
      · exact Or.inr hgap
      · have h := ih { s with start := t, count := 1 } hmono' (fun x hx => hts x hx) p hp'
        dsimp only at h
        rcases h with h | h
        · exact Or.inr (by omega)
        · exact Or.inr (by omega)
    · by_cases h2 : s.count < s.limit
      · rw [rlIssued_cons_grant h1 h2]
        intro p hp
        rcases List.mem_cons.mp hp with rfl | hp'
        · exact Or.inl rfl
        · have h := ih { s with count := s.count + 1 } hmono'
            (fun x hx => hstart x (List.mem_cons_of_mem t hx)) p hp'
          dsimp only at h
          exact h
      · rw [rlIssued_cons_block h1 h2]
        exact ih s hmono' fun x hx => hstart x (List.mem_cons_of_mem t hx)

/-- Every prescribed wait is at most the window length. -/
lemma rlWaits_le {ts : List Nat} :
    ∀ (s : RateLimitWindow), List.Pairwise (· ≤ ·) ts → (∀ t ∈ ts, s.start ≤ t) →
      ∀ d ∈ rlWaits s ts, d ≤ s.length := by
  induction ts with
  | nil => intro s _ _ d hd; simp [rlWaits, rlTrace] at hd
  | cons t ts ih =>
    intro s hmono hstart
    have hst : s.start ≤ t := hstart t (List.mem_cons_self t ts)
    obtain ⟨hts, hmono'⟩ := List.pairwise_cons.mp hmono
    by_cases h1 : s.length < t - s.start
    · rw [rlWaits_cons_reset h1]
      intro d hd
      have h := ih { s with start := t, count := 1 } hmono' (fun x hx => hts x hx) d hd
      dsimp only at h
      exact h
    · by_cases h2 : s.count < s.limit
      · rw [rlWaits_cons_grant h1 h2]
        intro d hd
        have h := ih { s with count := s.count + 1 } hmono'
          (fun x hx => hstart x (List.mem_cons_of_mem t hx)) d hd
        dsimp only at h
        exact h
      · rw [rlWaits_cons_block h1 h2]
        intro d hd
        rcases List.mem_cons.mp hd with rfl | hd'
        · omega
        · exact ih s hmono' (fun x hx => hstart x (List.mem_cons_of_mem t hx)) d hd'

/-- Along the issued list, later tags equal earlier ones or lie past the
earlier tag's whole window. -/
lemma rlIssued_pairwise {ts : List Nat} :
    ∀ (s : RateLimitWindow), List.Pairwise (· ≤ ·) ts → (∀ t ∈ ts, s.start ≤ t) →
      List.Pairwise (fun p q : Nat × Nat => p.2 = q.2 ∨ p.2 + s.length < q.2)
        (rlIssued s ts) := by
  induction ts with
  | nil => intro s _ _; simp [rlIssued, rlTrace]
  | cons t ts ih =>
    intro s hmono hstart
    have hst : s.start ≤ t := hstart t (List.mem_cons_self t ts)
    obtain ⟨hts, hmono'⟩ := List.pairwise_cons.mp hmono
    by_cases h1 : s.length < t - s.start
    · rw [rlIssued_cons_reset h1]
      rw [List.pairwise_cons]
      constructor
      · intro q hq
        have h := rlIssued_tags { s with start := t, count := 1 } hmono'
          (fun x hx => hts x hx) q hq
        dsimp only at h
        rcases h with h | h
        · exact Or.inl h.symm
        · exact Or.inr (by omega)
      · have h := ih { s with start := t, count := 1 } hmono' fun x hx => hts x hx
        dsimp only at h
        exact h
    · by_cases h2 : s.count < s.limit
      · rw [rlIssued_cons_grant h1 h2]
        rw [List.pairwise_cons]
        constructor
        · intro q hq
          have h := rlIssued_tags { s with count := s.count + 1 } hmono'
            (fun x hx => hstart x (List.mem_cons_of_mem t hx)) q hq
          dsimp only at h
          rcases h with h | h
          · exact Or.inl h.symm
          · exact Or.inr (by omega)
        · have h := ih { s with count := s.count + 1 } hmono'
            fun x hx => hstart x (List.mem_cons_of_mem t hx)
          dsimp only at h
          exact h
      · rw [rlIssued_cons_block h1 h2]
        exact ih s hmono' fun x hx => hstart x (List.mem_cons_of_mem t hx)

/-- Per-window admission bound: at most `limit` issued requests carry any
given tag (strengthened with the remaining budget of the open window). -/
lemma rlIssued_tag_count {ts : List Nat} :
    ∀ (s : RateLimitWindow), 1 ≤ s.limit → s.count ≤ s.limit →
      List.Pairwise (· ≤ ·) ts → (∀ t ∈ ts, s.start ≤ t) →
      ∀ g, ((rlIssued s ts).filter fun p => p.2 == g).length ≤
        if g = s.start then s.limit - s.count else s.limit := by
  induction ts with
  | nil =>
    intro s _ _ _ _ g
    simp [rlIssued, rlTrace]
  | cons t ts ih =>
    intro s hlim hcount hmono hstart g
    have hst : s.start ≤ t := hstart t (List.mem_cons_self t ts)
    obtain ⟨hts, hmono'⟩ := List.pairwise_cons.mp hmono
    by_cases h1 : s.length < t - s.start
    · have hlt : s.start < t := by omega
      rw [rlIssued_cons_reset h1]
      have htail := ih { s with start := t, count := 1 } hlim (by dsimp only; omega) hmono'
        (fun x hx => hts x hx) g
      dsimp only at htail
      by_cases hg : g = t
      · subst hg
        rw [List.filter_cons_of_pos (by simp)]
        rw [if_pos rfl] at htail
        have hgne : ¬ g = s.start := by omega
        rw [if_neg hgne]
        simp only [List.length_cons]
        omega
      · rw [List.filter_cons_of_neg (by simp; omega)]
        by_cases hgs : g = s.start
        · have hnil : ((rlIssued { s with start := t, count := 1 } ts).filter
              fun p => p.2 == g) = [] := by
            rw [List.filter_eq_nil_iff]
            intro q hq
            have h := rlIssued_tags { s with start := t, count := 1 } hmono'
              (fun x hx => hts x hx) q hq
            dsimp only at h
            simp only [beq_iff_eq]
            rcases h with h | h <;> omega
          rw [hnil]
          exact Nat.zero_le _
        · rw [if_neg hgs]
          rw [if_neg hg] at htail
          exact htail
    · by_cases h2 : s.count < s.limit
      · rw [rlIssued_cons_grant h1 h2]
        have htail := ih { s with count := s.count + 1 } hlim (by dsimp only; omega) hmono'
          (fun x hx => hstart x (List.mem_cons_of_mem t hx)) g
        dsimp only at htail
        by_cases hg : g = s.start
        · rw [List.filter_cons_of_pos (by simp [hg])]
          rw [if_pos hg] at htail
          rw [if_pos hg]
          simp only [List.length_cons]
          omega
        · rw [List.filter_cons_of_neg (by simp; omega)]
          rw [if_neg hg] at htail
          rw [if_neg hg]
          exact htail
      · rw [rlIssued_cons_block h1 h2]
        exact ih s hlim hcount hmono' (fun x hx => hstart x (List.mem_cons_of_mem t hx)) g

lemma length_le_two_tag_filters (l : List (Nat × Nat)) (g1 g2 : Nat)
    (h : ∀ x ∈ l, x.2 = g1 ∨ x.2 = g2) :
    l.length ≤ (l.filter fun x => x.2 == g1).length
      + (l.filter fun x => x.2 == g2).length := by
  induction l with
  | nil => simp
  | cons x xs ih =>
    have ihx := ih fun y hy => h y (List.mem_cons_of_mem x hy)
    have hx := h x (List.mem_cons_self x xs)
    by_cases h1 : x.2 = g1
    · rw [List.filter_cons_of_pos (by simp [h1])]
      by_cases h2 : x.2 = g2
      · rw [List.filter_cons_of_pos (by simp [h2])]
        simp only [List.length_cons]
        omega
      · rw [List.filter_cons_of_neg (by simp [h2])]
        simp only [List.length_cons]
        omega
    · have h2 : x.2 = g2 := hx.resolve_left h1
      rw [List.filter_cons_of_neg (by simp [h1]), List.filter_cons_of_pos (by simp [h2])]
      simp only [List.length_cons]
      omega

/-- Over any interval of duration `length`, at most two windows can
contribute issued requests, so at most `2 * limit` requests are issued. -/
lemma rlIssued_interval (s : RateLimitWindow) (ts : List Nat)
    (hlim : 1 ≤ s.limit) (hcount : s.count ≤ s.limit)
    (hmono : List.Pairwise (· ≤ ·) ts) (hstart : ∀ t ∈ ts, s.start ≤ t) (a : Nat) :
    ((rlIssued s ts).filter fun p => a ≤ p.1 ∧ p.1 ≤ a + s.length).length
      ≤ 2 * s.limit := by
  have htag : ∀ g, ((rlIssued s ts).filter fun p => p.2 == g).length ≤ s.limit := by
    intro g
    refine le_trans (rlIssued_tag_count s hlim hcount hmono hstart g) ?_
    split_ifs <;> omega
  have hwin := rlIssued_window s hmono hstart
  have hpair := rlIssued_pairwise s hmono hstart
  have hgap : ∀ p ∈ rlIssued s ts, ∀ q ∈ rlIssued s ts,
      p.2 = q.2 ∨ p.2 + s.length < q.2 ∨ q.2 + s.length < p.2 := by
    intro p hp q hq
    by_cases hpq : p = q
    · exact Or.inl (by rw [hpq])
    · have hsym : Symmetric (fun p q : Nat × Nat =>
          (p.2 = q.2 ∨ p.2 + s.length < q.2) ∨ (q.2 = p.2 ∨ q.2 + s.length < p.2)) := by
        intro x y hxy
        tauto
      have hp2 := (hpair.imp fun h => Or.inl h).forall hsym hp hq hpq
      tauto
  set F := (rlIssued s ts).filter fun p => a ≤ p.1 ∧ p.1 ≤ a + s.length with hFdef
  have hFsub : F.Sublist (rlIssued s ts) := List.filter_sublist _
  have hFbound : ∀ p ∈ F, a ≤ p.1 ∧ p.1 ≤ a + s.length := by
    intro p hp
    rw [hFdef] at hp
    exact of_decide_eq_true (List.mem_filter.mp hp).2
  rcases hFe : F with _ | ⟨e0, F'⟩
  · simp [hFe]
  · have he0 : e0 ∈ F := by rw [hFe]; exact List.mem_cons_self _ _
    by_cases hex : ∃ q ∈ F, q.2 ≠ e0.2
    · obtain ⟨q0, hq0, hq0ne⟩ := hex
      have htwo : ∀ p ∈ F, p.2 = e0.2 ∨ p.2 = q0.2 := by
        intro p hp
        by_contra hcon
        push_neg at hcon
        have h1 := hgap e0 (hFsub.subset he0) q0 (hFsub.subset hq0)
        have h2 := hgap e0 (hFsub.subset he0) p (hFsub.subset hp)
        have h3 := hgap q0 (hFsub.subset hq0) p (hFsub.subset hp)
        have hw0 := hwin e0 (hFsub.subset he0)
        have hwq := hwin q0 (hFsub.subset hq0)
        have hwp := hwin p (hFsub.subset hp)
        have hb0 := hFbound e0 he0
        have hbq := hFbound q0 hq0
        have hbp := hFbound p hp
        rcases h1 with h1 | h1 | h1
        · exact hq0ne h1.symm
        · rcases h2 with h2 | h2 | h2
          · exact hcon.1 h2.symm
          · rcases h3 with h3 | h3 | h3
            · exact hcon.2 h3.symm
            · omega
            · omega
          · rcases h3 with h3 | h3 | h3
            · exact hcon.2 h3.symm
            · omega
            · omega
        · rcases h2 with h2 | h2 | h2
          · exact hcon.1 h2.symm
          · rcases h3 with h3 | h3 | h3
            · exact hcon.2 h3.symm
            · omega
            · omega
          · rcases h3 with h3 | h3 | h3
            · exact hcon.2 h3.symm
            · omega
            · omega
      have hcount2 := length_le_two_tag_filters F e0.2 q0.2 htwo
      have hs1 : (F.filter fun x => x.2 == e0.2).length
          ≤ ((rlIssued s ts).filter fun x => x.2 == e0.2).length :=
        (hFsub.filter _).length_le
      have hs2 : (F.filter fun x => x.2 == q0.2).length
          ≤ ((rlIssued s ts).filter fun x => x.2 == q0.2).length :=
        (hFsub.filter _).length_le
      have ht1 := htag e0.2
      have ht2 := htag q0.2
      rw [← hFe]
      omega
    · push_neg at hex
      have hall : F.filter (fun x => x.2 == e0.2) = F := by
        rw [List.filter_eq_self]
        intro x hx
        simp [hex x hx]
      have hs1 : (F.filter fun x => x.2 == e0.2).length
          ≤ ((rlIssued s ts).filter fun x => x.2 == e0.2).length :=
        (hFsub.filter _).length_le
      have ht1 := htag e0.2
      rw [hall] at hs1
      rw [← hFe]
      omega

/-- Claim C2 (amended): the limiter is a resetting window, not a sliding
one.  For every limiter state with `1 ≤ limit` and `count ≤ limit` and
every monotone sequence of call times not before the window start: each
window (tag) admits at most `max_count` requests; any interval of
duration `time` contains at most `2 · max_count` issued requests (the
claimed `max_count` bound fails, see the counterexample); and a request
that arrives while the limit is exhausted is told to wait at most
`time`. -/
theorem C2_rate_limit_window_amended :
    ∀ (s : RateLimitWindow) (ts : List Nat),
      1 ≤ s.limit → s.count ≤ s.limit →
      List.Pairwise (· ≤ ·) ts → (∀ t ∈ ts, s.start ≤ t) →
      (∀ g, ((rlIssued s ts).filter fun p => p.2 == g).length ≤ s.limit) ∧
        (∀ a, ((rlIssued s ts).filter fun p => a ≤ p.1 ∧ p.1 ≤ a + s.length).length
            ≤ 2 * s.limit) ∧
        (∀ d ∈ rlWaits s ts, d ≤ s.length) := by
  intro s ts hlim hcount hmono hstart
  refine ⟨?_, ?_, ?_⟩
  · intro g
    refine le_trans (rlIssued_tag_count s hlim hcount hmono hstart g) ?_
    split_ifs <;> omega
  · intro a
    exact rlIssued_interval s ts hlim hcount hmono hstart a
  · exact rlWaits_le s hmono hstart

/-- Witness for `C2_rate_limit_window_amended` at the counterexample's
limiter (`max_count = 1`, `time = 500`) and call times `[400, 501]`. -/
theorem C2_rate_limit_window_amended_witness :
    (∀ g, ((rlIssued ⟨0, 500, 0, 1⟩ [400, 501]).filter
        fun p => p.2 == g).length ≤ 1) ∧
      (∀ a, ((rlIssued ⟨0, 500, 0, 1⟩ [400, 501]).filter
          fun p => a ≤ p.1 ∧ p.1 ≤ a + 500).length ≤ 2 * 1) ∧
      (∀ d ∈ rlWaits ⟨0, 500, 0, 1⟩ [400, 501], d ≤ 500) :=
  C2_rate_limit_window_amended ⟨0, 500, 0, 1⟩ [400, 501]
    (by decide) (by decide) (by decide) (by decide)

end Sacad
